import Mathlib

/-!
Verification of the Edgecast terraform provider's policy normalizer
(`rulesengine` package) and DNS TXT token poller (`cps` package).

The Go code manipulates parsed JSON as `map[string]interface{}` /
`[]interface{}` values with runtime type assertions.  We embed those
dynamic values as the inductive `GoVal`.  Go distinguishes the dynamic
types `[]interface{}` (produced by `json.Unmarshal`) and
`[]map[string]interface{}` (produced by `cleanMatches` / `cleanPolicy`);
the type assertions in the source observe that distinction, so the
embedding keeps two constructors (`varr` and `vmapArr`).  A failing
single-valued type assertion panics in Go; functions that can panic
return `Option` here, with `none` modelling the panic.

Go maps are modelled as association lists.  Maps produced by
`json.Unmarshal` have distinct keys; where a theorem needs that fact it
takes a `parsedVal`/`parsedObj` hypothesis ("this tree is the result of
parsing JSON": no `vmapArr` anywhere and all objects have distinct keys).

Recursive tree functions are defined with an explicit fuel argument
(structural recursion on `Nat`, so the kernel can evaluate them on
concrete inputs) together with wrappers that supply `sizeOf` as fuel and
stability lemmas showing the fuel never runs out.
-/

inductive GoVal where
  | vstr (s : String)
  | vnum (n : Int)
  | vbool (b : Bool)
  | vnull
  | varr (l : List GoVal)
  | vobj (m : List (String × GoVal))
  | vmapArr (l : List (List (String × GoVal)))
  deriving Repr

compile_inductive% GoVal

/-- A Go `map[string]interface{}` as an association list. -/
abbrev Obj := List (String × GoVal)

/-- Go `delete(m, k)`. -/
def mapDel (m : Obj) (k : String) : Obj :=
  m.filter (fun p => p.1 != k)

/-- Go map lookup `m[k]` in the comma-ok style: `none` when absent. -/
def mapGet (m : Obj) (k : String) : Option GoVal :=
  (m.find? (fun p => p.1 == k)).map Prod.snd

/-- Go map assignment `m[k] = v`: overwrite the binding if the key is
present, append it if new. -/
def mapSet : Obj → String → GoVal → Obj
  | [], k, v => [(k, v)]
  | p :: rest, k, v => if p.1 = k then (k, v) :: rest else p :: mapSet rest k v

/-- The key set of a map. -/
def keys (m : Obj) : List String := m.map Prod.fst

/-! ### standardizeMatchFeature -/

/-- One character of Go `strings.Replace(k, "-", "_", -1)`. -/
def stdChar (c : Char) : Char := if c = '-' then '_' else c

/-- Go `strings.Replace(k, "-", "_", -1)`: the pattern is the single
character `-`, so replacing every occurrence is a character-wise map. -/
def stdKey (k : String) : String := String.mk (k.data.map stdChar)

/-- Modelled from the spec: `helper.ConvertSliceToStrings` (package
`terraform-provider-ec/ec/helper`) is not part of the sources here.  Per
the spec it succeeds exactly when every element of the slice is
representable as a string, returning the elements in their original
order; a non-string-representable element (e.g. a nested object) makes
it fail.  In the embedding an element is string-representable iff it is
a JSON string. -/
def ConvertSliceToStrings : List GoVal → Option (List String)
  | [] => some []
  | .vstr s :: rest => (ConvertSliceToStrings rest).map (fun ss => s :: ss)
  | _ :: _ => none

/-- The value transformation of `standardizeMatchFeature`: an array all
of whose elements convert to strings becomes the space-joined string
(`strings.Join(stringArray, " ")`); anything else is unchanged. -/
def stdVal (v : GoVal) : GoVal :=
  match v with
  | .varr l =>
    match ConvertSliceToStrings l with
    | some ss => .vstr (String.intercalate " " ss)
    | none => .varr l
  | _ => v

/-- One iteration of the `for k, v := range` loop in
`standardizeMatchFeature`: `delete(m, k)` followed by
`m[strings.Replace(k, "-", "_", -1)] = v` (with `v` joined first when it
is an all-strings array). -/
def stdStep (acc : Obj) (e : String × GoVal) : Obj :=
  mapSet (mapDel acc e.1) (stdKey e.1) (stdVal e.2)

/-- Go `standardizeMatchFeature`: iterates over the map, deleting each
key and re-inserting the standardized key with the (possibly joined)
value.  Go map iteration order is unspecified; the embedding iterates
over the entries present at the start of the loop in list order with
their initial values.  This matches every Go execution when no two keys
standardize to the same key (the only case in which Go's behaviour is
deterministic), and is one admissible linearization otherwise. -/
def standardizeMatchFeature (m : Obj) : Obj := m.foldl stdStep m

/-! ### cleanMatches / cleanPolicy -/

/-- The `features` loop body of `cleanMatches`: each feature must be a
`map[string]interface{}` (else the type assertion panics), its
`ordinal` is deleted and it is standardized. -/
def cleanFeatures : List GoVal → Option (List Obj)
  | [] => some []
  | .vobj f :: rest =>
    (cleanFeatures rest).map
      (fun cfs => standardizeMatchFeature (mapDel f "ordinal") :: cfs)
  | _ :: _ => none

/-- The tail of the per-match body of `cleanMatches`: if the (already
standardized, matches-replaced) match has a `features` key holding a
`[]interface{}`, clean each feature and store the result (which has Go
type `[]map[string]interface{}`). -/
def finishMatch (m2 : Obj) : Option Obj :=
  match mapGet m2 "features" with
  | some (.varr fs) =>
    (cleanFeatures fs).map (fun cfs => mapSet m2 "features" (.vmapArr cfs))
  | _ => some m2

/-- Fueled implementation of Go `cleanMatches`.  Each match must be a
`map[string]interface{}` (else panic); its `ordinal` is deleted, it is
standardized, a `matches` key holding a `[]interface{}` is recursively
cleaned and replaced (now of type `[]map[string]interface{}`), and the
features are cleaned.  The fuel only serves termination; `cleanMatches`
supplies enough fuel that the `0` branch is never taken. -/
def cleanMatchesF : Nat → List GoVal → Option (List Obj)
  | _, [] => some []
  | 0, _ :: _ => none
  | fuel+1, v :: rest =>
    match v with
    | .vobj m =>
      let m1 := standardizeMatchFeature (mapDel m "ordinal")
      let step1 : Option Obj :=
        match mapGet m1 "matches" with
        | some (.varr children) =>
          (cleanMatchesF fuel children).map
            (fun cms => mapSet m1 "matches" (.vmapArr cms))
        | _ => some m1
      (step1.bind finishMatch).bind
        (fun cm => (cleanMatchesF fuel rest).map (fun cms => cm :: cms))
    | _ => none

/-- Go `cleanMatches` (recursive function removing metadata from
matches).  `none` models a Go panic. -/
def cleanMatches (l : List GoVal) : Option (List Obj) :=
  cleanMatchesF (sizeOf l) l

/-- The per-match body of `cleanMatches`, processing a single element of
the matches slice. -/
def cleanMatch (v : GoVal) : Option Obj :=
  match v with
  | .vobj m =>
    let m1 := standardizeMatchFeature (mapDel m "ordinal")
    let step1 : Option Obj :=
      match mapGet m1 "matches" with
      | some (.varr children) =>
        (cleanMatches children).map
          (fun cms => mapSet m1 "matches" (.vmapArr cms))
      | _ => some m1
    step1.bind finishMatch
  | _ => none

/-- Delete a list of keys in order. -/
def delAll (m : Obj) (ks : List String) : Obj := ks.foldl mapDel m

/-- The keys `cleanPolicy` deletes from every rule map, in source order. -/
def ruleMetaKeys : List String :=
  ["id", "@id", "@type", "ordinal", "created_at", "updated_at"]

/-- The deletes `cleanPolicy` performs on every rule map. -/
def ruleDeletes (m : Obj) : Obj := delAll m ruleMetaKeys

/-- The per-rule body of the `rules` loop in `cleanPolicy`: each rule
must be a `map[string]interface{}` (else panic), rule-level metadata is
deleted, and a `matches` key holding a `[]interface{}` is cleaned and
replaced. -/
def cleanRules : List GoVal → Option (List Obj)
  | [] => some []
  | .vobj m :: rest =>
    (match mapGet (ruleDeletes m) "matches" with
     | some (.varr ms) =>
       (cleanMatches ms).map
         (fun cms => mapSet (ruleDeletes m) "matches" (.vmapArr cms))
     | _ => some (ruleDeletes m)).bind
      (fun cr => (cleanRules rest).map (fun crs => cr :: crs))
  | _ :: _ => none

/-- The keys `cleanPolicy` deletes from the root object, in source order. -/
def rootMetaKeys : List String :=
  ["id", "@id", "@type", "policy_type", "state", "history",
   "created_at", "updated_at"]

/-- The deletes `cleanPolicy` performs on the root object. -/
def rootDeletes (p : Obj) : Obj := delAll p rootMetaKeys

/-- Go `cleanPolicy`.  After the root deletes, the source runs
`rules := policyMap["rules"].([]interface{})` — a single-valued type
assertion that panics (`none`) when the key is absent or its value is
not a `[]interface{}`.  The cleaned rules are stored back with Go type
`[]map[string]interface{}`. -/
def cleanPolicy (p : Obj) : Option Obj :=
  match mapGet (rootDeletes p) "rules" with
  | some (.varr rules) =>
    (cleanRules rules).map
      (fun rms => mapSet (rootDeletes p) "rules" (.vmapArr rms))
  | _ => none

/-! ### JSON round trip and parsedness -/

/-- Fueled implementation of `reparseVal`. -/
def reparseValF : Nat → GoVal → GoVal
  | 0, v => v
  | fuel+1, v =>
    match v with
    | .varr l => .varr (l.map (reparseValF fuel))
    | .vobj m => .vobj (m.map (fun p => (p.1, reparseValF fuel p.2)))
    | .vmapArr l =>
      .varr (l.map (fun mm => .vobj (mm.map (fun p => (p.1, reparseValF fuel p.2)))))
    | v' => v'

/-- The effect of `json.Marshal` followed by `json.Unmarshal` on the
dynamic types of a tree: a `[]map[string]interface{}` serializes exactly
like the corresponding `[]interface{}` of maps, so re-parsing flattens
`vmapArr` into `varr` of `vobj` everywhere and changes nothing else. -/
def reparseVal (v : GoVal) : GoVal := reparseValF (sizeOf v) v

/-- `reparseVal` applied to every value of a map. -/
def reparseObj (m : Obj) : Obj := m.map (fun p => (p.1, reparseVal p.2))

/-- Fueled implementation of `parsedVal`. -/
def parsedValF : Nat → GoVal → Bool
  | 0, _ => false
  | fuel+1, v =>
    match v with
    | .varr l => l.all (parsedValF fuel)
    | .vobj m =>
      decide (m.map Prod.fst).Nodup && m.all (fun p => parsedValF fuel p.2)
    | .vmapArr _ => false
    | _ => true

/-- `parsedVal v` holds when `v` can be the result of `json.Unmarshal`
into `interface{}`: no `vmapArr` anywhere, and every object has
distinct keys (Go maps cannot have duplicates). -/
def parsedVal (v : GoVal) : Bool := parsedValF (sizeOf v) v

/-- `parsedVal` for a `map[string]interface{}` root. -/
def parsedObj (m : Obj) : Bool := parsedVal (.vobj m)

/-- Fueled implementation of `matchOrdFree`. -/
def matchOrdFreeF : Nat → Obj → Bool
  | 0, _ => false
  | fuel+1, m =>
    (mapGet m "ordinal").isNone &&
    (match mapGet m "matches" with
     | some (.vmapArr l) => l.all (fun m' => matchOrdFreeF fuel m')
     | _ => true) &&
    (match mapGet m "features" with
     | some (.vmapArr fs) => fs.all (fun f => (mapGet f "ordinal").isNone)
     | _ => true)

/-- No `ordinal` key in a cleaned match object, in any of its cleaned
child matches recursively, or in any of its cleaned features. -/
def matchOrdFree (m : Obj) : Bool := matchOrdFreeF (sizeOf m) m

/-! ### Token poller (`cps/data_source_dns_txt_token.go`) -/

/-- The SDK's DCV token object (`models.DcvToken`). -/
structure DcvToken where
  token : String
  deriving DecidableEq, Repr

/-- The SDK's per-domain DCV metadata (`models.DomainDcvFull`); the
token object is a pointer and may be nil. -/
structure DomainDcvFull where
  dcvToken : Option DcvToken
  deriving DecidableEq, Repr

/-- The certificate status response
(`certificate.CertificateGetCertificateStatusOK`). -/
structure CertificateGetCertificateStatusOK where
  status : String
  deriving DecidableEq, Repr

/-- The certificate details response, restricted to the fields the
poller reads. -/
structure CertificateGetOK where
  validationType : String
  workflowErrorMessage : String
  deriving DecidableEq, Repr

/-- Modelled from the spec: the SDK constant
`models.CdnProvidedCertificateValidationTypeDV` names the required
domain-validation kind; the poller only compares against it. -/
def CdnProvidedCertificateValidationTypeDV : String := "DV"

/-- Go `strings.ToLower`, rune by rune: `unicode.ToLower` lowers
`A`..`Z` on the ASCII range the certificate statuses live in. -/
def goToLower (s : String) : String := String.mk (s.data.map Char.toLower)

/-- Go `CheckForRetry`: retry iff the status is "processing"
case-insensitively, or no domain metadata was returned, or the first
domain's token object is nil, or its token string is empty.  The `||`
short-circuits exactly as in Go, so `metadata[0]` is only read when the
list is non-empty. -/
def CheckForRetry (metadata : List DomainDcvFull)
    (statusresp : CertificateGetCertificateStatusOK) : Bool :=
  goToLower statusresp.status == "processing" ||
    match metadata with
    | [] => true
    | d :: _ =>
      match d.dcvToken with
      | none => true
      | some t => t.token.length == 0

/-- `metadata[0].DcvToken.Token`.  The default branches model the Go nil
dereference / index panic and are unreachable where the source reads the
token (`CheckForRetry` returned false). -/
def firstToken (metadata : List DomainDcvFull) : String :=
  match metadata with
  | d :: _ =>
    match d.dcvToken with
    | some t => t.token
    | none => ""
  | [] => ""

/-- The mutable fields of the data-source state: the computed `value`
and the synthetic resource id. -/
structure ReadState where
  value : Option String
  id : Option String
  deriving DecidableEq, Repr

/-- The responses the remote service gives during one polling attempt;
`none` models a transport/API error.  `metadata` is the result of
`GetDomainMetadata` (defined elsewhere in the `cps` package), treated as
an external collaborator. -/
structure PollEnv where
  certResp : Option CertificateGetOK
  statusResp : Option CertificateGetCertificateStatusOK
  metadata : List DomainDcvFull
  deriving DecidableEq, Repr

/-- Result of one attempt of the retry closure. -/
inductive StepOut where
  | fatal (msg : String) (st : ReadState)
  | retryAgain (st : ReadState)
  | finished (st : ReadState)
  deriving DecidableEq, Repr

/-- The closure passed to `resource.RetryContext` in
`DataSourceDNSTXTTokenRead`: fetch certificate and status (errors are
non-retryable), reject non-DV certificates and workflow errors as
non-retryable, then either retry / exit quietly according to
`CheckForRetry` and the `wait_until_available` flag, or set the token
value and the timestamp id. -/
def pollStep (env : PollEnv) (retry : Bool) (ts : String) (st : ReadState) : StepOut :=
  match env.certResp with
  | none => .fatal "error while retrieving certificate details" st
  | some resp =>
    match env.statusResp with
    | none => .fatal "error while retrieving certificate details" st
    | some statusresp =>
      if resp.validationType ≠ CdnProvidedCertificateValidationTypeDV then
        .fatal "certificate must have validation type DV" st
      else if resp.workflowErrorMessage.length > 0 then
        .fatal ("error in workflow: " ++ resp.workflowErrorMessage) st
      else if CheckForRetry env.metadata statusresp then
        if retry then .retryAgain st else .finished st
      else
        .finished ⟨some (firstToken env.metadata), some ts⟩

/-- `resource.RetryContext` driving `pollStep`: the fuel is the number
of attempts the `wait_timeout` deadline allows (the interval policy
lives in the SDK's generic retry utility).  Returns the final state, the
error (`none` on success), and the number of attempts performed.
Exhausted fuel models the deadline elapsing while retrying. -/
def runRetry (env : PollEnv) (retry : Bool) (ts : String) :
    Nat → ReadState → ReadState × Option String × Nat
  | 0, st => (st, some "timeout while waiting: token not available", 0)
  | n+1, st =>
    match pollStep env retry ts st with
    | .fatal m st' => (st', some m, 1)
    | .finished st' => (st', none, 1)
    | .retryAgain st' =>
      let r := runRetry env retry ts n st'
      (r.1, r.2.1, r.2.2 + 1)

/-- Go `DataSourceDNSTXTTokenRead`.  `durParse` abstracts
`time.ParseDuration(d.Get("wait_timeout"))` together with the conversion
of the resulting deadline into a number of retry attempts: `none` means
the duration string failed to parse, in which case the function errors
before doing anything else. -/
def DataSourceDNSTXTTokenRead (durParse : Option Nat) (env : PollEnv)
    (retry : Bool) (ts : String) : Except String ReadState :=
  match durParse with
  | none => .error "invalid wait_timeout"
  | some fuel =>
    let r := runRetry env retry ts fuel ⟨none, none⟩
    match r.2.1 with
    | some m => .error m
    | none => .ok r.1

/-! ### Policy resource handlers (create / read / delete) -/

/-- Go `strconv.Atoi`: an optional sign followed by at least one digit
(64-bit range limits are not modelled; the ids in play are small). -/
def parseDigits : List Char → Option Nat
  | [] => none
  | cs =>
    if cs.all (fun c => c.isDigit) then
      some (cs.foldl (fun a c => a * 10 + (c.toNat - 48)) 0)
    else none

/-- Go `strconv.Atoi` on a string. -/
def goAtoi (s : String) : Option Int :=
  match s.data with
  | '+' :: rest => (parseDigits rest).map (fun n => (n : Int))
  | '-' :: rest => (parseDigits rest).map (fun n => -(n : Int))
  | cs => (parseDigits cs).map (fun n => (n : Int))

/-- The remote calls a policy operation can make.  `deletePolicy` is
included to express that no code path ever performs it: the remote API
has no usable delete, and the provider never calls one. -/
inductive APICall where
  | getPolicy (id : Int)
  | addPolicy (body : Obj)
  | deployPolicy (policyID : Int) (environment : String)
  | deletePolicy (id : Int)

/-- Remote responses for one policy operation; `.error` models a
transport/API failure. -/
structure RemoteEnv where
  getPolicyResp : Except String Obj
  addPolicyResp : Except String String
  deployResp : Except String String

/-- The fields of the terraform resource data a policy operation can
mutate. -/
structure PolicyResourceState where
  id : Option String
  policy : Option Obj
  deployRequestId : Option String

/-- The policy map `ResourcePolicyCreate` builds from its input: it
unmarshals the `policy` string into a fresh map — IGNORING the
`json.Unmarshal` error, so a failed parse (`parsed = none`) leaves the
map empty — and then forces `state` to `"locked"`.  The subsequent
`json.Marshal` of a string-keyed map of JSON values cannot fail. -/
def createPolicyMap (parsed : Option Obj) : Obj :=
  mapSet (parsed.getD []) "state" (.vstr "locked")

/-- The input-handling prefix of `ResourcePolicyCreate`: the body it
hands to `addPolicy`.  There is no error return before `addPolicy` is
reached, whatever the parse result. -/
def ResourcePolicyCreateSubmission (parsed : Option Obj) : Except String Obj :=
  .ok (createPolicyMap parsed)

/-- Go `getPolicy`: parse the stored id with `strconv.Atoi` (failing
before any remote call), then fetch the policy. -/
def getPolicy (idStr : String) (env : RemoteEnv) : List APICall × Except String Obj :=
  match goAtoi idStr with
  | none => ([], .error "error parsing Policy ID from state file")
  | some policyID => ([.getPolicy policyID], env.getPolicyResp)

/-- Go `addPolicy`: submit the policy, parse the returned id, for a
non-placeholder store id and policy, deploy, and finally either clear
the id (placeholder: logical delete) or store the deploy request id. -/
def addPolicy (body : Obj) (isEmptyPolicy : Bool) (st : PolicyResourceState)
    (env : RemoteEnv) (deployTo : String) :
    List APICall × PolicyResourceState × Option String :=
  match env.addPolicyResp with
  | .error e => ([.addPolicy body], st, some ("addPolicy: " ++ e))
  | .ok respID =>
    match goAtoi respID with
    | none => ([.addPolicy body], st, some "addPolicy: parsing policy ID")
    | some policyID =>
      let st1 := if isEmptyPolicy then st
                 else { st with id := some respID, policy := some body }
      match env.deployResp with
      | .error e =>
        ([.addPolicy body, .deployPolicy policyID deployTo], st1,
          some ("addPolicy: " ++ e))
      | .ok deployID =>
        let st2 := if isEmptyPolicy then { st1 with id := some "" }
                   else { st1 with deployRequestId := some deployID }
        ([.addPolicy body, .deployPolicy policyID deployTo], st2, none)

/-- Go `ResourcePolicyRead`: fetch (clearing the id on error), set the
id from the body, clean, marshal, store. -/
def ResourcePolicyRead (st : PolicyResourceState) (env : RemoteEnv) :
    List APICall × PolicyResourceState × Option String :=
  match getPolicy (st.id.getD "") env with
  | (calls, .error e) => (calls, { st with id := some "" }, some e)
  | (calls, .ok policy) =>
    match mapGet policy "id" with
    | some (.vstr pid) =>
      match cleanPolicy policy with
      | some cleaned =>
        (calls, { st with id := some pid, policy := some cleaned }, none)
      | none => (calls, { st with id := some pid }, some "panic in cleanPolicy")
    | _ => (calls, st, some "panic: policy id missing or not a string")

/-- The placeholder policy `ResourcePolicyDelete` synthesizes: the parse
of `fmt.Sprintf(emptyPolicyFormat, timestamp, platform, timestamp)`,
where `emptyPolicyFormat` is the fixed JSON template constant of the
source with its three `%s` slots filled in order. -/
def emptyPolicyObj (timestamp platform : String) : Obj :=
  [("@type", .vstr "policy-create"),
   ("name", .vstr ("Terraform Placeholder - " ++ timestamp)),
   ("platform", .vstr platform),
   ("rules", .varr
     [.vobj
       [("@type", .vstr "rule-create"),
        ("description",
          .vstr "Placeholder rule created by the Edgecast Terraform Provider"),
        ("matches", .varr
          [.vobj
            [("features", .varr
              [.vobj [("type", .vstr "feature.comment"),
                      ("value", .vstr ("Empty policy created on " ++ timestamp))]]),
             ("ordinal", .vnum 1),
             ("type", .vstr "match.always")]]),
        ("name", .vstr "Placeholder Rule")]]),
   ("state", .vstr "locked")]

/-- Go `ResourcePolicyDelete`: re-fetch the policy, pull out its
`platform` (a panicking type assertion, `none`-modelled), synthesize the
placeholder policy for that platform and deploy it via `addPolicy` with
`isEmptyPolicy = true`.  No delete endpoint exists or is called. -/
def ResourcePolicyDelete (st : PolicyResourceState) (env : RemoteEnv)
    (deployTo timestamp : String) :
    List APICall × PolicyResourceState × Option String :=
  match getPolicy (st.id.getD "") env with
  | (calls, .error e) => (calls, st, some e)
  | (calls, .ok policy) =>
    match mapGet policy "platform" with
    | some (.vstr platform) =>
      match addPolicy (emptyPolicyObj timestamp platform) true st env deployTo with
      | (calls2, st', e) => (calls ++ calls2, st', e)
    | _ => (calls, st, some "panic: policy platform is not a string")

/-! ### Basic lemmas about the map operations -/

theorem mem_mapDel {m : Obj} {k : String} {p : String × GoVal} :
    p ∈ mapDel m k ↔ p ∈ m ∧ p.1 ≠ k := by
  simp [mapDel, List.mem_filter]

theorem mapDel_sublist (m : Obj) (k : String) : (mapDel m k).Sublist m :=
  List.filter_sublist m

theorem mem_mapSet {m : Obj} {k : String} {v : GoVal} {p : String × GoVal}
    (h : p ∈ mapSet m k v) : p = (k, v) ∨ p ∈ m := by
  induction m with
  | nil => simpa [mapSet] using h
  | cons q rest ih =>
    rw [mapSet] at h
    split at h
    · rcases List.mem_cons.mp h with h' | h'
      · exact Or.inl h'
      · exact Or.inr (List.mem_cons_of_mem _ h')
    · rcases List.mem_cons.mp h with h' | h'
      · exact Or.inr (h' ▸ List.mem_cons_self _ _)
      · rcases ih h' with h'' | h''
        · exact Or.inl h''
        · exact Or.inr (List.mem_cons_of_mem _ h'')

theorem mapGet_eq_some_mem {m : Obj} {k : String} {v : GoVal}
    (h : mapGet m k = some v) : (k, v) ∈ m := by
  unfold mapGet at h
  rcases Option.map_eq_some'.mp h with ⟨p, hp, hv⟩
  have h1 : p.1 = k := by simpa using List.find?_some hp
  have h2 := List.mem_of_find?_eq_some hp
  cases p with
  | mk a b => cases h1; cases hv; exact h2

theorem mapGet_eq_none_iff {m : Obj} {k : String} :
    mapGet m k = none ↔ ∀ p ∈ m, p.1 ≠ k := by
  unfold mapGet
  simp [List.find?_eq_none]

theorem mapGet_mapDel_self (m : Obj) (k : String) :
    mapGet (mapDel m k) k = none := by
  rw [mapGet_eq_none_iff]
  intro p hp
  exact (mem_mapDel.mp hp).2

theorem mapGet_mapDel_ne {m : Obj} {k k' : String} (h : k' ≠ k) :
    mapGet (mapDel m k) k' = mapGet m k' := by
  induction m with
  | nil => rfl
  | cons p rest ih =>
    by_cases h1 : p.1 = k
    · have : mapDel (p :: rest) k = mapDel rest k := by
        simp [mapDel, List.filter_cons, h1]
      rw [this, ih]
      have h2 : ¬ p.1 = k' := by rw [h1]; exact fun hx => h hx.symm
      simp [mapGet, List.find?_cons, h2]
    · have : mapDel (p :: rest) k = p :: mapDel rest k := by
        simp [mapDel, List.filter_cons, h1]
      rw [this]
      by_cases h2 : p.1 = k'
      · simp [mapGet, List.find?_cons, h2]
      · simp only [mapGet, List.find?_cons] at *
        have hb : (p.1 == k') = false := by simpa using h2
        rw [hb]
        exact ih

theorem mapDel_eq_self {m : Obj} {k : String} (h : mapGet m k = none) :
    mapDel m k = m := by
  rw [mapGet_eq_none_iff] at h
  unfold mapDel
  exact List.filter_eq_self.mpr (fun p hp => by simpa using h p hp)

theorem mapGet_mapSet_self (m : Obj) (k : String) (v : GoVal) :
    mapGet (mapSet m k v) k = some v := by
  induction m with
  | nil => simp [mapSet, mapGet]
  | cons p rest ih =>
    rw [mapSet]
    split
    · simp [mapGet]
    · rename_i h1
      have hb : (p.1 == k) = false := by simpa using h1
      simp only [mapGet, List.find?_cons, hb]
      exact ih

theorem mapGet_mapSet_ne {m : Obj} {k k' : String} {v : GoVal} (h : k' ≠ k) :
    mapGet (mapSet m k v) k' = mapGet m k' := by
  induction m with
  | nil =>
    have hb : (k == k') = false := by simpa using fun hx : k = k' => h hx.symm
    simp [mapSet, mapGet, hb]
  | cons p rest ih =>
    rw [mapSet]
    split
    · rename_i h1
      have hb : (k == k') = false := by simpa using fun hx : k = k' => h hx.symm
      have hb2 : (p.1 == k') = false := by
        rw [h1]; exact hb
      simp [mapGet, List.find?_cons, hb, hb2]
    · by_cases h2 : p.1 = k'
      · simp [mapGet, List.find?_cons, h2]
      · have hb : (p.1 == k') = false := by simpa using h2
        simp only [mapGet, List.find?_cons, hb]
        exact ih

theorem mapSet_same {m : Obj} {k : String} {v : GoVal}
    (h : mapGet m k = some v) : mapSet m k v = m := by
  induction m with
  | nil => simp [mapGet] at h
  | cons p rest ih =>
    by_cases h1 : p.1 = k
    · have hv : p.2 = v := by
        have hb : (p.1 == k) = true := by simpa using h1
        simp [mapGet, List.find?_cons, hb] at h
        exact h
      rw [mapSet]
      simp only [h1, if_pos]
      rw [← h1, ← hv]
    · have hb : (p.1 == k) = false := by simpa using h1
      simp only [mapGet, List.find?_cons, hb] at h
      rw [mapSet]
      simp only [h1, if_neg, not_false_iff]
      rw [ih h]

theorem mem_keys_iff {m : Obj} {x : String} :
    x ∈ keys m ↔ ∃ v, (x, v) ∈ m := by
  unfold keys
  constructor
  · intro h
    rcases List.mem_map.mp h with ⟨p, hp, he⟩
    exact ⟨p.2, by cases p; cases he; exact hp⟩
  · rintro ⟨v, hv⟩
    exact List.mem_map.mpr ⟨(x, v), hv, rfl⟩

theorem nodup_keys_mapDel {m : Obj} (k : String) (h : (keys m).Nodup) :
    (keys (mapDel m k)).Nodup :=
  (List.Sublist.map Prod.fst (mapDel_sublist m k)).nodup h

theorem keys_mem_mapSet {m : Obj} {k : String} {v : GoVal} {x : String}
    (h : x ∈ keys (mapSet m k v)) : x ∈ keys m ∨ x = k := by
  rcases mem_keys_iff.mp h with ⟨w, hw⟩
  rcases mem_mapSet hw with h' | h'
  · exact Or.inr (congrArg Prod.fst h')
  · exact Or.inl (mem_keys_iff.mpr ⟨w, h'⟩)

theorem nodup_keys_mapSet {m : Obj} (k : String) (v : GoVal)
    (h : (keys m).Nodup) : (keys (mapSet m k v)).Nodup := by
  induction m with
  | nil => simp [mapSet, keys]
  | cons p rest ih =>
    rw [mapSet]
    have hk : keys (p :: rest) = p.1 :: keys rest := rfl
    rw [hk] at h
    split
    · rename_i h1
      have : keys ((k, v) :: rest) = k :: keys rest := rfl
      rw [this]
      rw [← h1]
      exact h
    · rename_i h1
      have : keys (p :: mapSet rest k v) = p.1 :: keys (mapSet rest k v) := rfl
      rw [this]
      refine List.Nodup.cons ?_ (ih (List.Nodup.of_cons h))
      intro hmem
      rcases keys_mem_mapSet hmem with h' | h'
      · exact (List.nodup_cons.mp h).1 h'
      · exact h1 h'

theorem sizeOf_snd_lt {m : Obj} {p : String × GoVal} (h : p ∈ m) :
    sizeOf p.2 < sizeOf m := by
  have h1 := List.sizeOf_lt_of_mem h
  have h2 : sizeOf p.2 < sizeOf p := by
    cases p with
    | mk a b => simp
  omega

theorem sizeOf_sublist_le {l1 l2 : Obj} (h : l1.Sublist l2) :
    sizeOf l1 ≤ sizeOf l2 := by
  induction h with
  | slnil => simp
  | cons a _ ih => simp; omega
  | cons₂ a _ ih => simp; omega

theorem sizeOf_mapDel_le (m : Obj) (k : String) :
    sizeOf (mapDel m k) ≤ sizeOf m :=
  sizeOf_sublist_le (mapDel_sublist m k)

/-! ### Lemmas about key and value standardization -/

theorem string_data_inj {s t : String} (h : s.data = t.data) : s = t := by
  cases s; cases t; exact congrArg String.mk (by simpa using h)

theorem stdChar_idem (c : Char) : stdChar (stdChar c) = stdChar c := by
  by_cases h : c = '-' <;> simp [stdChar, h]

theorem stdKey_data (k : String) : (stdKey k).data = k.data.map stdChar := rfl

theorem stdKey_idem (k : String) : stdKey (stdKey k) = stdKey k := by
  apply string_data_inj
  rw [stdKey_data, stdKey_data, List.map_map]
  exact List.map_congr_left (fun a _ => stdChar_idem a)

theorem map_stdChar_fix {l t : List Char} (ht : '_' ∉ t)
    (h : l.map stdChar = t) : l = t := by
  induction l generalizing t with
  | nil => simpa using h
  | cons c cs ih =>
    rw [List.map_cons] at h
    cases t with
    | nil => simp at h
    | cons d ds =>
      have h1 : stdChar c = d := (List.cons.injEq _ _ _ _ ▸ h).1
      have h2 : cs.map stdChar = ds := (List.cons.injEq _ _ _ _ ▸ h).2
      have hd : d ≠ '_' := fun he => ht (he ▸ List.mem_cons_self d ds)
      have hc : c = d := by
        by_cases hc' : c = '-'
        · exact absurd (by rw [← h1, hc']; rfl) (Ne.symm hd)
        · rw [← h1]; simp [stdChar, hc']
      rw [hc, ih (fun hm => ht (List.mem_cons_of_mem d hm)) h2]

theorem stdKey_eq_ordinal {k : String} (h : stdKey k = "ordinal") :
    k = "ordinal" := by
  apply string_data_inj
  have hd : k.data.map stdChar = ("ordinal" : String).data := by
    rw [← stdKey_data, h]
  exact map_stdChar_fix (by decide) hd

theorem ConvertSliceToStrings_some {l : List GoVal} {ss : List String}
    (h : ConvertSliceToStrings l = some ss) : l = ss.map GoVal.vstr := by
  induction l generalizing ss with
  | nil =>
    rw [ConvertSliceToStrings] at h
    cases h; rfl
  | cons v rest ih =>
    cases v with
    | vstr s =>
      rw [ConvertSliceToStrings] at h
      rcases Option.map_eq_some'.mp h with ⟨ss', hss', he⟩
      rw [← he, List.map_cons]
      rw [ih hss']
    | vnum n => exact Option.noConfusion h
    | vbool b => exact Option.noConfusion h
    | vnull => exact Option.noConfusion h
    | varr l' => exact Option.noConfusion h
    | vobj m' => exact Option.noConfusion h
    | vmapArr l' => exact Option.noConfusion h

theorem ConvertSliceToStrings_map_vstr (ss : List String) :
    ConvertSliceToStrings (ss.map .vstr) = some ss := by
  induction ss with
  | nil => rfl
  | cons s rest ih => rw [List.map_cons, ConvertSliceToStrings, ih]; rfl

theorem stdVal_idem (v : GoVal) : stdVal (stdVal v) = stdVal v := by
  cases v with
  | varr l =>
    rw [stdVal]
    cases h : ConvertSliceToStrings l with
    | some ss => rfl
    | none => rw [stdVal, h]
  | vstr s => rfl
  | vnum n => rfl
  | vbool b => rfl
  | vnull => rfl
  | vobj m => rfl
  | vmapArr l => rfl

theorem stdVal_eq_varr {v : GoVal} {l : List GoVal}
    (h : stdVal v = .varr l) : v = .varr l := by
  cases v with
  | varr l' =>
    rw [stdVal] at h
    cases h' : ConvertSliceToStrings l' with
    | some ss => rw [h'] at h; cases h
    | none => rw [h'] at h; exact h
  | vstr s => cases h
  | vnum n => cases h
  | vbool b => cases h
  | vnull => cases h
  | vobj m => cases h
  | vmapArr l' => cases h

/-! ### The iteration of standardizeMatchFeature -/

theorem keys_append (l1 l2 : Obj) : keys (l1 ++ l2) = keys l1 ++ keys l2 :=
  List.map_append _ _ _

theorem mapSet_append {m : Obj} {k : String} {v : GoVal}
    (h : mapGet m k = none) : mapSet m k v = m ++ [(k, v)] := by
  induction m with
  | nil => rfl
  | cons p rest ih =>
    rw [mapGet_eq_none_iff] at h
    have h1 : p.1 ≠ k := h p (List.mem_cons_self _ _)
    rw [mapSet, if_neg h1, List.cons_append]
    rw [ih]
    rw [mapGet_eq_none_iff]
    exact fun q hq => h q (List.mem_cons_of_mem _ hq)

theorem foldl_stdStep_origin {m : Obj} :
    ∀ (es acc : Obj), (∀ e ∈ es, e ∈ m) →
      (∀ p ∈ acc, (∃ e ∈ m, p = (stdKey e.1, stdVal e.2)) ∨ p ∈ es) →
      ∀ p ∈ List.foldl stdStep acc es,
        ∃ e ∈ m, p = (stdKey e.1, stdVal e.2)
  | [], acc, _, hacc, p, hp => by
    rcases hacc p hp with h | h
    · exact h
    · exact absurd h (List.not_mem_nil p)
  | e :: es, acc, hes, hacc, p, hp => by
    rw [List.foldl_cons] at hp
    refine foldl_stdStep_origin es (stdStep acc e)
      (fun e' he' => hes e' (List.mem_cons_of_mem _ he')) ?_ p hp
    intro q hq
    rcases mem_mapSet hq with h | h
    · exact Or.inl ⟨e, hes e (List.mem_cons_self _ _), h⟩
    · have h2 := mem_mapDel.mp h
      rcases hacc q h2.1 with h' | h'
      · exact Or.inl h'
      · rcases List.mem_cons.mp h' with h'' | h''
        · exact absurd (congrArg Prod.fst h'') h2.2
        · exact Or.inr h''

theorem stdMF_origin {m : Obj} {p : String × GoVal}
    (hp : p ∈ standardizeMatchFeature m) :
    ∃ e ∈ m, p = (stdKey e.1, stdVal e.2) := by
  unfold standardizeMatchFeature at hp
  exact foldl_stdStep_origin m m (fun e he => he) (fun q hq => Or.inr hq) p hp

theorem stdMF_entries_fixed {m : Obj} {p : String × GoVal}
    (hp : p ∈ standardizeMatchFeature m) :
    stdKey p.1 = p.1 ∧ stdVal p.2 = p.2 := by
  obtain ⟨e, _, hpe⟩ := stdMF_origin hp
  have h1 : p.1 = stdKey e.1 := congrArg Prod.fst hpe
  have h2 : p.2 = stdVal e.2 := congrArg Prod.snd hpe
  constructor
  · rw [h1, stdKey_idem]
  · rw [h2, stdVal_idem]

theorem mapGet_stdMF_del_ordinal (m : Obj) :
    mapGet (standardizeMatchFeature (mapDel m "ordinal")) "ordinal" = none := by
  rw [mapGet_eq_none_iff]
  intro p hp hk
  obtain ⟨e, he, hpe⟩ := stdMF_origin hp
  have h1 : p.1 = stdKey e.1 := congrArg Prod.fst hpe
  have h2 : stdKey e.1 = "ordinal" := by rw [← h1, hk]
  exact (mem_mapDel.mp he).2 (stdKey_eq_ordinal h2)

theorem foldl_stdStep_rotate :
    ∀ (es pre : Obj), (keys (es ++ pre)).Nodup →
      (∀ e ∈ es, stdKey e.1 = e.1 ∧ stdVal e.2 = e.2) →
      List.foldl stdStep (es ++ pre) es = pre ++ es
  | [], pre, _, _ => by simp
  | e :: es, pre, hn, hf => by
    have hfe := hf e (List.mem_cons_self _ _)
    have hn1 : e.1 ∉ keys (es ++ pre) := by
      have : keys ((e :: es) ++ pre) = e.1 :: keys (es ++ pre) := rfl
      rw [this] at hn
      exact (List.nodup_cons.mp hn).1
    have habs : mapGet (es ++ pre) e.1 = none := by
      rw [mapGet_eq_none_iff]
      intro q hq hq1
      exact hn1 (mem_keys_iff.mpr ⟨q.2, by rw [← hq1]; exact hq⟩)
    have hstep : stdStep ((e :: es) ++ pre) e = es ++ (pre ++ [e]) := by
      unfold stdStep
      rw [hfe.1, hfe.2]
      have hdel : mapDel ((e :: es) ++ pre) e.1 = es ++ pre := by
        rw [List.cons_append]
        have : mapDel (e :: (es ++ pre)) e.1 =
            mapDel (es ++ pre) e.1 := by
          simp [mapDel, List.filter_cons]
        rw [this, mapDel_eq_self habs]
      rw [hdel, mapSet_append habs]
      cases e with
      | mk a b => simp
    rw [List.foldl_cons, hstep]
    have hperm : (keys ((e :: es) ++ pre)).Perm (keys (es ++ (pre ++ [e]))) := by
      rw [keys_append, keys_append]
      have h1 : keys (e :: es) = e.1 :: keys es := rfl
      have h2 : keys (pre ++ [e]) = keys pre ++ [e.1] := keys_append pre [e]
      rw [h1, h2, ← List.append_assoc]
      exact (List.perm_append_singleton _ _).symm
    have hn' : (keys (es ++ (pre ++ [e]))).Nodup := hperm.nodup hn
    have := foldl_stdStep_rotate es (pre ++ [e]) hn'
      (fun e' he' => hf e' (List.mem_cons_of_mem _ he'))
    rw [this, List.append_assoc]
    rfl

theorem stdMF_id {m : Obj} (hn : (keys m).Nodup)
    (hf : ∀ e ∈ m, stdKey e.1 = e.1 ∧ stdVal e.2 = e.2) :
    standardizeMatchFeature m = m := by
  have h := foldl_stdStep_rotate m [] (by simpa using hn) hf
  simp at h
  simpa [standardizeMatchFeature] using h

theorem foldl_stdStep_nodup :
    ∀ (es acc : Obj), (keys acc).Nodup →
      (keys (List.foldl stdStep acc es)).Nodup
  | [], _, h => h
  | e :: es, acc, h =>
    foldl_stdStep_nodup es _ (nodup_keys_mapSet _ _ (nodup_keys_mapDel _ h))

theorem nodup_keys_stdMF {m : Obj} (h : (keys m).Nodup) :
    (keys (standardizeMatchFeature m)).Nodup :=
  foldl_stdStep_nodup m m h

theorem foldl_stdStep_keeps {k : String} (hk : stdKey k = k) :
    ∀ (es acc : Obj), (mapGet acc k).isSome →
      (mapGet (List.foldl stdStep acc es) k).isSome
  | [], _, h => h
  | e :: es, acc, h => by
    rw [List.foldl_cons]
    refine foldl_stdStep_keeps hk es _ ?_
    unfold stdStep
    by_cases h1 : stdKey e.1 = k
    · rw [h1, mapGet_mapSet_self]; rfl
    · have h2 : e.1 ≠ k := by
        intro he
        exact h1 (by rw [he, hk])
      rw [mapGet_mapSet_ne (fun he => h1 he.symm),
        mapGet_mapDel_ne (fun he => h2 he.symm)]
      exact h

theorem stdMF_present {m : Obj} {e : String × GoVal} (he : e ∈ m) :
    (mapGet (standardizeMatchFeature m) (stdKey e.1)).isSome := by
  obtain ⟨s, t, hst⟩ := List.append_of_mem he
  unfold standardizeMatchFeature
  rw [hst, List.foldl_append, List.foldl_cons]
  refine foldl_stdStep_keeps (stdKey_idem e.1) t _ ?_
  unfold stdStep
  rw [mapGet_mapSet_self]
  rfl

/-! ### Fuel stability for cleanMatches -/

theorem goVal_sizeOf_pos (v : GoVal) : 1 ≤ sizeOf v := by
  cases v <;> (simp; try omega)

theorem stdMF_varr_sub {m0 : Obj} {k : String} {l : List GoVal}
    (h : mapGet (standardizeMatchFeature m0) k = some (.varr l)) :
    ∃ k', (k', GoVal.varr l) ∈ m0 := by
  have hm := mapGet_eq_some_mem h
  obtain ⟨e, he, hpe⟩ := stdMF_origin hm
  cases e with
  | mk a b =>
    have h2 : GoVal.varr l = stdVal b := congrArg Prod.snd hpe
    have h3 : b = .varr l := stdVal_eq_varr h2.symm
    exact ⟨a, by rw [← h3]; exact he⟩

theorem sizeOf_children_lt {m : Obj} {children : List GoVal}
    (h : mapGet (standardizeMatchFeature (mapDel m "ordinal")) "matches" =
      some (.varr children)) :
    sizeOf children < sizeOf m := by
  obtain ⟨k', hk'⟩ := stdMF_varr_sub h
  have h1 := (mem_mapDel.mp hk').1
  have h2 : sizeOf (GoVal.varr children) < sizeOf m := sizeOf_snd_lt h1
  have h3 : sizeOf (GoVal.varr children) = 1 + sizeOf children := by simp
  omega

theorem cleanMatchesF_nil : ∀ f, cleanMatchesF f [] = some [] := by
  intro f; cases f <;> rfl

theorem cleanMatchesF_cons_obj (f : Nat) (m : Obj) (rest : List GoVal) :
    cleanMatchesF (f+1) (.vobj m :: rest) =
      ((match mapGet (standardizeMatchFeature (mapDel m "ordinal")) "matches" with
        | some (.varr children) =>
          (cleanMatchesF f children).map
            (fun cms =>
              mapSet (standardizeMatchFeature (mapDel m "ordinal")) "matches"
                (.vmapArr cms))
        | _ => some (standardizeMatchFeature (mapDel m "ordinal"))).bind
          finishMatch).bind
        (fun cm => (cleanMatchesF f rest).map (fun cms => cm :: cms)) := rfl

theorem cleanMatchesF_congr :
    ∀ (n : Nat) (l : List GoVal) (f1 f2 : Nat),
      sizeOf l ≤ n → sizeOf l ≤ f1 → sizeOf l ≤ f2 →
      cleanMatchesF f1 l = cleanMatchesF f2 l := by
  intro n
  induction n with
  | zero =>
    intro l f1 f2 hn _ _
    cases l with
    | nil => rw [cleanMatchesF_nil, cleanMatchesF_nil]
    | cons v rest =>
      exfalso
      have hs : sizeOf (v :: rest) = 1 + sizeOf v + sizeOf rest := by simp
      omega
  | succ n ih =>
    intro l f1 f2 hn h1 h2
    cases l with
    | nil => rw [cleanMatchesF_nil, cleanMatchesF_nil]
    | cons v rest =>
      have hsv := goVal_sizeOf_pos v
      have hs : sizeOf (v :: rest) = 1 + sizeOf v + sizeOf rest := by simp
      rw [hs] at hn h1 h2
      obtain ⟨f1', rfl⟩ : ∃ f', f1 = f' + 1 := ⟨f1 - 1, by omega⟩
      obtain ⟨f2', rfl⟩ : ∃ f', f2 = f' + 1 := ⟨f2 - 1, by omega⟩
      have hrest : cleanMatchesF f1' rest = cleanMatchesF f2' rest :=
        ih rest f1' f2' (by omega) (by omega) (by omega)
      cases v with
      | vobj m =>
        have hvm : sizeOf (GoVal.vobj m) = 1 + sizeOf m := by simp
        rw [hvm] at hn h1 h2
        rw [cleanMatchesF_cons_obj, cleanMatchesF_cons_obj]
        cases hm : mapGet (standardizeMatchFeature (mapDel m "ordinal")) "matches" with
        | none => simp only [hm]; rw [hrest]
        | some w =>
          cases w with
          | varr children =>
            have hc : sizeOf children < sizeOf m := sizeOf_children_lt hm
            have hchild : cleanMatchesF f1' children = cleanMatchesF f2' children :=
              ih children f1' f2' (by omega) (by omega) (by omega)
            simp only [hm]
            rw [hchild, hrest]
          | vstr s => simp only [hm]; rw [hrest]
          | vnum x => simp only [hm]; rw [hrest]
          | vbool b => simp only [hm]; rw [hrest]
          | vnull => simp only [hm]; rw [hrest]
          | vobj m' => simp only [hm]; rw [hrest]
          | vmapArr l' => simp only [hm]; rw [hrest]
      | vstr s => rfl
      | vnum x => rfl
      | vbool b => rfl
      | vnull => rfl
      | varr l' => rfl
      | vmapArr l' => rfl

theorem cleanMatchesF_eq_cleanMatches {f : Nat} {l : List GoVal}
    (h : sizeOf l ≤ f) : cleanMatchesF f l = cleanMatches l :=
  cleanMatchesF_congr f l f (sizeOf l) h h (Nat.le_refl _)

theorem cleanMatches_nil : cleanMatches [] = some [] := rfl

theorem cleanMatch_obj (m : Obj) :
    cleanMatch (.vobj m) =
      (match mapGet (standardizeMatchFeature (mapDel m "ordinal")) "matches" with
        | some (.varr children) =>
          (cleanMatches children).map
            (fun cms =>
              mapSet (standardizeMatchFeature (mapDel m "ordinal")) "matches"
                (.vmapArr cms))
        | _ => some (standardizeMatchFeature (mapDel m "ordinal"))).bind
        finishMatch := rfl

theorem cleanMatches_cons (v : GoVal) (rest : List GoVal) :
    cleanMatches (v :: rest) =
      (cleanMatch v).bind
        (fun cm => (cleanMatches rest).map (fun cms => cm :: cms)) := by
  have hsv := goVal_sizeOf_pos v
  have hs : sizeOf (v :: rest) = (sizeOf v + sizeOf rest) + 1 := by simp; omega
  unfold cleanMatches
  rw [hs]
  have hrest : cleanMatchesF (sizeOf v + sizeOf rest) rest = cleanMatches rest :=
    cleanMatchesF_eq_cleanMatches (by omega)
  cases v with
  | vobj m =>
    have hvm : sizeOf (GoVal.vobj m) = 1 + sizeOf m := by simp
    rw [cleanMatchesF_cons_obj, cleanMatch_obj]
    cases hm : mapGet (standardizeMatchFeature (mapDel m "ordinal")) "matches" with
    | none => simp only [hm]; rw [hrest]; rfl
    | some w =>
      cases w with
      | varr children =>
        have hc : sizeOf children < sizeOf m := sizeOf_children_lt hm
        have hchild :
            cleanMatchesF (sizeOf (GoVal.vobj m) + sizeOf rest) children =
              cleanMatches children :=
          cleanMatchesF_eq_cleanMatches (by omega)
        simp only [hm]
        rw [hchild, hrest]; rfl
      | vstr s => simp only [hm]; rw [hrest]; rfl
      | vnum x => simp only [hm]; rw [hrest]; rfl
      | vbool b => simp only [hm]; rw [hrest]; rfl
      | vnull => simp only [hm]; rw [hrest]; rfl
      | vobj m' => simp only [hm]; rw [hrest]; rfl
      | vmapArr l' => simp only [hm]; rw [hrest]; rfl
  | vstr s => rfl
  | vnum x => rfl
  | vbool b => rfl
  | vnull => rfl
  | varr l' => rfl
  | vmapArr l' => rfl

/-! ### Fuel stability for reparse, parsedness and ordinal-freeness -/

theorem list_all_congr {α : Type} {p q : α → Bool} :
    ∀ l : List α, (∀ a ∈ l, p a = q a) → l.all p = l.all q := by
  intro l h
  induction l with
  | nil => rfl
  | cons a rest ih =>
    rw [List.all_cons, List.all_cons, h a (List.mem_cons_self _ _),
      ih (fun a' ha' => h a' (List.mem_cons_of_mem _ ha'))]

theorem reparseValF_congr :
    ∀ (n : Nat) (v : GoVal) (f1 f2 : Nat),
      sizeOf v ≤ n → sizeOf v ≤ f1 → sizeOf v ≤ f2 →
      reparseValF f1 v = reparseValF f2 v := by
  intro n
  induction n with
  | zero =>
    intro v f1 f2 hn _ _
    exact absurd hn (by have := goVal_sizeOf_pos v; omega)
  | succ n ih =>
    intro v f1 f2 hn h1 h2
    have hv := goVal_sizeOf_pos v
    obtain ⟨f1', rfl⟩ : ∃ f', f1 = f' + 1 := ⟨f1 - 1, by omega⟩
    obtain ⟨f2', rfl⟩ : ∃ f', f2 = f' + 1 := ⟨f2 - 1, by omega⟩
    cases v with
    | varr l =>
      have hsl : sizeOf (GoVal.varr l) = 1 + sizeOf l := by simp
      rw [reparseValF, reparseValF]
      exact congrArg GoVal.varr (List.map_congr_left (fun x hx => by
        have hxl := List.sizeOf_lt_of_mem hx
        exact ih x f1' f2' (by omega) (by omega) (by omega)))
    | vobj m =>
      have hsl : sizeOf (GoVal.vobj m) = 1 + sizeOf m := by simp
      rw [reparseValF, reparseValF]
      exact congrArg GoVal.vobj (List.map_congr_left (fun p hp => by
        have hpl := sizeOf_snd_lt hp
        exact congrArg (Prod.mk p.1)
          (ih p.2 f1' f2' (by omega) (by omega) (by omega))))
    | vmapArr l =>
      have hsl : sizeOf (GoVal.vmapArr l) = 1 + sizeOf l := by simp
      rw [reparseValF, reparseValF]
      refine congrArg GoVal.varr (List.map_congr_left (fun mm hmm => ?_))
      have hml : sizeOf mm < sizeOf l := List.sizeOf_lt_of_mem hmm
      refine congrArg GoVal.vobj (List.map_congr_left (fun p hp => ?_))
      have hpl := sizeOf_snd_lt hp
      exact congrArg (Prod.mk p.1)
        (ih p.2 f1' f2' (by omega) (by omega) (by omega))
    | vstr s => rfl
    | vnum x => rfl
    | vbool b => rfl
    | vnull => rfl

theorem reparseValF_eq_reparseVal {f : Nat} {v : GoVal}
    (h : sizeOf v ≤ f) : reparseValF f v = reparseVal v :=
  reparseValF_congr f v f (sizeOf v) h h (Nat.le_refl _)

theorem reparseVal_vstr (s : String) : reparseVal (.vstr s) = .vstr s := by
  unfold reparseVal
  obtain ⟨f, hf⟩ : ∃ f, sizeOf (GoVal.vstr s) = f + 1 :=
    ⟨sizeOf (GoVal.vstr s) - 1, by have := goVal_sizeOf_pos (GoVal.vstr s); omega⟩
  rw [hf]
  rfl

theorem reparseVal_vnum (x : Int) : reparseVal (.vnum x) = .vnum x := by
  unfold reparseVal
  obtain ⟨f, hf⟩ : ∃ f, sizeOf (GoVal.vnum x) = f + 1 :=
    ⟨sizeOf (GoVal.vnum x) - 1, by have := goVal_sizeOf_pos (GoVal.vnum x); omega⟩
  rw [hf]
  rfl

theorem reparseVal_vbool (b : Bool) : reparseVal (.vbool b) = .vbool b := by
  unfold reparseVal
  obtain ⟨f, hf⟩ : ∃ f, sizeOf (GoVal.vbool b) = f + 1 :=
    ⟨sizeOf (GoVal.vbool b) - 1, by have := goVal_sizeOf_pos (GoVal.vbool b); omega⟩
  rw [hf]
  rfl

theorem reparseVal_vnull : reparseVal .vnull = .vnull := rfl

theorem reparseVal_varr (l : List GoVal) :
    reparseVal (.varr l) = .varr (l.map reparseVal) := by
  unfold reparseVal
  have h1 : sizeOf (GoVal.varr l) = sizeOf l + 1 := by simp [Nat.add_comm]
  rw [h1, reparseValF]
  exact congrArg GoVal.varr (List.map_congr_left (fun x hx =>
    reparseValF_eq_reparseVal (by have := List.sizeOf_lt_of_mem hx; omega)))

theorem reparseVal_vobj (m : Obj) :
    reparseVal (.vobj m) = .vobj (reparseObj m) := by
  unfold reparseVal reparseObj
  have h1 : sizeOf (GoVal.vobj m) = sizeOf m + 1 := by simp [Nat.add_comm]
  rw [h1, reparseValF]
  exact congrArg GoVal.vobj (List.map_congr_left (fun p hp =>
    congrArg (Prod.mk p.1)
      (reparseValF_eq_reparseVal (by have := sizeOf_snd_lt hp; omega))))

theorem reparseVal_vmapArr (l : List Obj) :
    reparseVal (.vmapArr l) = .varr (l.map (fun mm => .vobj (reparseObj mm))) := by
  unfold reparseVal reparseObj
  have h1 : sizeOf (GoVal.vmapArr l) = sizeOf l + 1 := by simp [Nat.add_comm]
  rw [h1, reparseValF]
  refine congrArg GoVal.varr (List.map_congr_left (fun mm hmm => ?_))
  have hml : sizeOf mm < sizeOf l := List.sizeOf_lt_of_mem hmm
  refine congrArg GoVal.vobj (List.map_congr_left (fun p hp => ?_))
  exact congrArg (Prod.mk p.1)
    (reparseValF_eq_reparseVal (by have := sizeOf_snd_lt hp; omega))

theorem parsedValF_congr :
    ∀ (n : Nat) (v : GoVal) (f1 f2 : Nat),
      sizeOf v ≤ n → sizeOf v ≤ f1 → sizeOf v ≤ f2 →
      parsedValF f1 v = parsedValF f2 v := by
  intro n
  induction n with
  | zero =>
    intro v f1 f2 hn _ _
    exact absurd hn (by have := goVal_sizeOf_pos v; omega)
  | succ n ih =>
    intro v f1 f2 hn h1 h2
    have hv := goVal_sizeOf_pos v
    obtain ⟨f1', rfl⟩ : ∃ f', f1 = f' + 1 := ⟨f1 - 1, by omega⟩
    obtain ⟨f2', rfl⟩ : ∃ f', f2 = f' + 1 := ⟨f2 - 1, by omega⟩
    cases v with
    | varr l =>
      have hsl : sizeOf (GoVal.varr l) = 1 + sizeOf l := by simp
      rw [parsedValF, parsedValF]
      exact list_all_congr l (fun x hx => by
        have := List.sizeOf_lt_of_mem hx
        exact ih x f1' f2' (by omega) (by omega) (by omega))
    | vobj m =>
      have hsl : sizeOf (GoVal.vobj m) = 1 + sizeOf m := by simp
      rw [parsedValF, parsedValF]
      exact congrArg (decide (m.map Prod.fst).Nodup && ·)
        (list_all_congr m (fun p hp => by
          have := sizeOf_snd_lt hp
          exact ih p.2 f1' f2' (by omega) (by omega) (by omega)))
    | vmapArr l => rfl
    | vstr s => rfl
    | vnum x => rfl
    | vbool b => rfl
    | vnull => rfl

theorem parsedValF_eq_parsedVal {f : Nat} {v : GoVal}
    (h : sizeOf v ≤ f) : parsedValF f v = parsedVal v :=
  parsedValF_congr f v f (sizeOf v) h h (Nat.le_refl _)

theorem parsedVal_varr (l : List GoVal) :
    parsedVal (.varr l) = l.all parsedVal := by
  unfold parsedVal
  have h1 : sizeOf (GoVal.varr l) = sizeOf l + 1 := by simp [Nat.add_comm]
  rw [h1, parsedValF]
  exact list_all_congr l (fun x hx =>
    parsedValF_eq_parsedVal (by have := List.sizeOf_lt_of_mem hx; omega))

theorem parsedVal_vobj (m : Obj) :
    parsedVal (.vobj m) =
      (decide ((keys m).Nodup) && m.all (fun p => parsedVal p.2)) := by
  unfold parsedVal
  have h1 : sizeOf (GoVal.vobj m) = sizeOf m + 1 := by simp [Nat.add_comm]
  rw [h1, parsedValF]
  exact congrArg (decide ((keys m).Nodup) && ·)
    (list_all_congr m (fun p hp =>
      parsedValF_eq_parsedVal (by have := sizeOf_snd_lt hp; omega)))

theorem parsedVal_vmapArr (l : List Obj) : parsedVal (.vmapArr l) = false := by
  unfold parsedVal
  obtain ⟨f, hf⟩ : ∃ f, sizeOf (GoVal.vmapArr l) = f + 1 :=
    ⟨sizeOf (GoVal.vmapArr l) - 1, by
      have := goVal_sizeOf_pos (GoVal.vmapArr l); omega⟩
  rw [hf]
  rfl

theorem list_sizeOf_pos {α : Type} [SizeOf α] (l : List α) : 1 ≤ sizeOf l := by
  cases l <;> (simp; try omega)

theorem sizeOf_vmapArr_val_lt {m : Obj} {k : String} {l : List Obj}
    (h : mapGet m k = some (.vmapArr l)) : sizeOf l < sizeOf m := by
  have h1 := mapGet_eq_some_mem h
  have h2 : sizeOf (GoVal.vmapArr l) < sizeOf m := sizeOf_snd_lt h1
  have h3 : sizeOf (GoVal.vmapArr l) = 1 + sizeOf l := by simp
  omega

theorem matchOrdFreeF_congr :
    ∀ (n : Nat) (m : Obj) (f1 f2 : Nat),
      sizeOf m ≤ n → sizeOf m ≤ f1 → sizeOf m ≤ f2 →
      matchOrdFreeF f1 m = matchOrdFreeF f2 m := by
  intro n
  induction n with
  | zero =>
    intro m f1 f2 hn _ _
    exact absurd hn (by have := list_sizeOf_pos m; omega)
  | succ n ih =>
    intro m f1 f2 hn h1 h2
    have hm0 := list_sizeOf_pos m
    obtain ⟨f1', rfl⟩ : ∃ f', f1 = f' + 1 := ⟨f1 - 1, by omega⟩
    obtain ⟨f2', rfl⟩ : ∃ f', f2 = f' + 1 := ⟨f2 - 1, by omega⟩
    rw [matchOrdFreeF, matchOrdFreeF]
    congr 1
    congr 1
    cases hm : mapGet m "matches" with
    | none => rfl
    | some w =>
      cases w with
      | vmapArr l =>
        have hl : sizeOf l < sizeOf m := sizeOf_vmapArr_val_lt hm
        exact list_all_congr l (fun m' hm' => by
          have := List.sizeOf_lt_of_mem hm'
          exact ih m' f1' f2' (by omega) (by omega) (by omega))
      | vstr s => rfl
      | vnum x => rfl
      | vbool b => rfl
      | vnull => rfl
      | varr l' => rfl
      | vobj m' => rfl

theorem matchOrdFreeF_eq_matchOrdFree {f : Nat} {m : Obj}
    (h : sizeOf m ≤ f) : matchOrdFreeF f m = matchOrdFree m :=
  matchOrdFreeF_congr f m f (sizeOf m) h h (Nat.le_refl _)

/-- The child-matches component of `matchOrdFree`. -/
def ordMatchesBranch (o : Option GoVal) : Bool :=
  match o with
  | some (.vmapArr l) => l.all matchOrdFree
  | _ => true

/-- The features component of `matchOrdFree`. -/
def ordFeaturesBranch (o : Option GoVal) : Bool :=
  match o with
  | some (.vmapArr fs) => fs.all (fun f => (mapGet f "ordinal").isNone)
  | _ => true

theorem matchOrdFree_eq (m : Obj) :
    matchOrdFree m =
      ((mapGet m "ordinal").isNone && ordMatchesBranch (mapGet m "matches") &&
        ordFeaturesBranch (mapGet m "features")) := by
  unfold matchOrdFree
  have h1 : sizeOf m = (sizeOf m - 1) + 1 := by have := list_sizeOf_pos m; omega
  rw [h1, matchOrdFreeF]
  congr 1
  congr 1
  cases hm : mapGet m "matches" with
  | none => rfl
  | some w =>
    cases w with
    | vmapArr l =>
      have hl : sizeOf l < sizeOf m := sizeOf_vmapArr_val_lt hm
      show l.all (matchOrdFreeF (sizeOf m - 1)) = l.all matchOrdFree
      exact list_all_congr l (fun m' hm' => by
        have := List.sizeOf_lt_of_mem hm'
        exact matchOrdFreeF_eq_matchOrdFree (by omega))
    | vstr s => rfl
    | vnum x => rfl
    | vbool b => rfl
    | vnull => rfl
    | varr l' => rfl
    | vobj m' => rfl

/-! ### Parsed trees and the JSON round trip -/

theorem parsedObj_iff {m : Obj} :
    parsedObj m = true ↔ (keys m).Nodup ∧ ∀ p ∈ m, parsedVal p.2 = true := by
  unfold parsedObj
  rw [parsedVal_vobj]
  simp [List.all_eq_true]

theorem parsedVal_varr_iff {l : List GoVal} :
    parsedVal (.varr l) = true ↔ ∀ x ∈ l, parsedVal x = true := by
  rw [parsedVal_varr]
  simp [List.all_eq_true]

theorem reparseVal_of_parsed_aux :
    ∀ (n : Nat) (v : GoVal), sizeOf v ≤ n → parsedVal v = true →
      reparseVal v = v := by
  intro n
  induction n with
  | zero =>
    intro v h _
    exact absurd h (by have := goVal_sizeOf_pos v; omega)
  | succ n ih =>
    intro v hn hp
    cases v with
    | vstr s => exact reparseVal_vstr s
    | vnum x => exact reparseVal_vnum x
    | vbool b => exact reparseVal_vbool b
    | vnull => exact reparseVal_vnull
    | varr l =>
      rw [reparseVal_varr]
      have hall := parsedVal_varr_iff.mp hp
      have hs : sizeOf (GoVal.varr l) = 1 + sizeOf l := by simp
      have hmap : l.map reparseVal = l.map id :=
        List.map_congr_left (fun x hx => ih x
          (by have := List.sizeOf_lt_of_mem hx; omega) (hall x hx))
      rw [hmap, List.map_id]
    | vobj m =>
      rw [reparseVal_vobj]
      have hm := parsedObj_iff.mp hp
      have hs : sizeOf (GoVal.vobj m) = 1 + sizeOf m := by simp
      have hmap : reparseObj m = m.map id := by
        unfold reparseObj
        refine List.map_congr_left (fun p hp' => ?_)
        have hv := ih p.2 (by have := sizeOf_snd_lt hp'; omega) (hm.2 p hp')
        cases p with
        | mk a b => simpa using hv
      rw [hmap, List.map_id]
    | vmapArr l =>
      rw [parsedVal_vmapArr] at hp
      exact absurd hp (by simp)

theorem reparseVal_of_parsed {v : GoVal} (h : parsedVal v = true) :
    reparseVal v = v :=
  reparseVal_of_parsed_aux (sizeOf v) v (Nat.le_refl _) h

theorem reparseObj_of_parsed {m : Obj} (h : parsedObj m = true) :
    reparseObj m = m := by
  have h1 : reparseVal (.vobj m) = .vobj m := reparseVal_of_parsed h
  rw [reparseVal_vobj] at h1
  injection h1

theorem reparseVal_idem_aux :
    ∀ (n : Nat) (v : GoVal), sizeOf v ≤ n →
      reparseVal (reparseVal v) = reparseVal v := by
  intro n
  induction n with
  | zero =>
    intro v h
    exact absurd h (by have := goVal_sizeOf_pos v; omega)
  | succ n ih =>
    intro v hn
    cases v with
    | vstr s => rw [reparseVal_vstr, reparseVal_vstr]
    | vnum x => rw [reparseVal_vnum, reparseVal_vnum]
    | vbool b => rw [reparseVal_vbool, reparseVal_vbool]
    | vnull => rw [reparseVal_vnull, reparseVal_vnull]
    | varr l =>
      have hs : sizeOf (GoVal.varr l) = 1 + sizeOf l := by simp
      rw [reparseVal_varr, reparseVal_varr, List.map_map]
      refine congrArg GoVal.varr (List.map_congr_left (fun x hx => ?_))
      exact ih x (by have := List.sizeOf_lt_of_mem hx; omega)
    | vobj m =>
      have hs : sizeOf (GoVal.vobj m) = 1 + sizeOf m := by simp
      rw [reparseVal_vobj, reparseVal_vobj]
      refine congrArg GoVal.vobj ?_
      unfold reparseObj
      rw [List.map_map]
      refine List.map_congr_left (fun p hp => ?_)
      have hv := ih p.2 (by have := sizeOf_snd_lt hp; omega)
      cases p with
      | mk a b => simpa using hv
    | vmapArr l =>
      have hs : sizeOf (GoVal.vmapArr l) = 1 + sizeOf l := by simp
      rw [reparseVal_vmapArr, reparseVal_varr, List.map_map]
      refine congrArg GoVal.varr (List.map_congr_left (fun mm hmem => ?_))
      have hml : sizeOf mm < sizeOf l := List.sizeOf_lt_of_mem hmem
      simp only [Function.comp_apply]
      show reparseVal (GoVal.vobj (reparseObj mm)) = GoVal.vobj (reparseObj mm)
      rw [reparseVal_vobj]
      refine congrArg GoVal.vobj ?_
      unfold reparseObj
      rw [List.map_map]
      refine List.map_congr_left (fun p hp => ?_)
      have hv := ih p.2 (by have := sizeOf_snd_lt hp; omega)
      cases p with
      | mk a b => simpa using hv

theorem reparseVal_idem (v : GoVal) :
    reparseVal (reparseVal v) = reparseVal v :=
  reparseVal_idem_aux (sizeOf v) v (Nat.le_refl _)

theorem reparseObj_idem (m : Obj) :
    reparseObj (reparseObj m) = reparseObj m := by
  unfold reparseObj
  rw [List.map_map]
  refine List.map_congr_left (fun p _ => ?_)
  have hv := reparseVal_idem p.2
  cases p with
  | mk a b => simpa using hv

theorem keys_reparseObj (m : Obj) : keys (reparseObj m) = keys m := by
  unfold keys reparseObj
  rw [List.map_map]
  rfl

theorem mapGet_reparseObj (m : Obj) (k : String) :
    mapGet (reparseObj m) k = (mapGet m k).map reparseVal := by
  induction m with
  | nil => rfl
  | cons p rest ih =>
    by_cases h : p.1 = k
    · have hb : (p.1 == k) = true := by simpa using h
      simp only [reparseObj, List.map_cons, mapGet, List.find?_cons, hb]
      rfl
    · have hb : (p.1 == k) = false := by simpa using h
      simp only [reparseObj, List.map_cons, mapGet, List.find?_cons, hb]
      exact ih

theorem reparseObj_mapSet (m : Obj) (k : String) (v : GoVal) :
    reparseObj (mapSet m k v) = mapSet (reparseObj m) k (reparseVal v) := by
  induction m with
  | nil => rfl
  | cons p rest ih =>
    rw [mapSet]
    by_cases h : p.1 = k
    · rw [if_pos h]
      have h2 : (reparseObj (p :: rest)) = (p.1, reparseVal p.2) :: reparseObj rest := rfl
      rw [h2, mapSet, if_pos h]
      rfl
    · rw [if_neg h]
      have h2 : (reparseObj (p :: rest)) = (p.1, reparseVal p.2) :: reparseObj rest := rfl
      rw [h2, mapSet, if_neg h]
      have h3 : reparseObj ((p :: mapSet rest k v) : Obj) =
          (p.1, reparseVal p.2) :: reparseObj (mapSet rest k v) := rfl
      rw [h3, ih]

theorem reparseObj_mapDel (m : Obj) (k : String) :
    reparseObj (mapDel m k) = mapDel (reparseObj m) k := by
  induction m with
  | nil => rfl
  | cons p rest ih =>
    by_cases h : p.1 = k
    · have h1 : mapDel (p :: rest) k = mapDel rest k := by
        simp [mapDel, List.filter_cons, h]
      have h2 : mapDel (reparseObj (p :: rest)) k = mapDel (reparseObj rest) k := by
        show mapDel ((p.1, reparseVal p.2) :: reparseObj rest) k = _
        simp [mapDel, List.filter_cons, h]
      rw [h1, h2, ih]
    · have h1 : mapDel (p :: rest) k = p :: mapDel rest k := by
        simp [mapDel, List.filter_cons, h]
      have h2 : mapDel (reparseObj (p :: rest)) k =
          (p.1, reparseVal p.2) :: mapDel (reparseObj rest) k := by
        show mapDel ((p.1, reparseVal p.2) :: reparseObj rest) k = _
        simp [mapDel, List.filter_cons, h]
      rw [h1, h2, ← ih]
      rfl

theorem parsedVal_vstr (s : String) : parsedVal (.vstr s) = true := by
  unfold parsedVal
  obtain ⟨f, hf⟩ : ∃ f, sizeOf (GoVal.vstr s) = f + 1 :=
    ⟨sizeOf (GoVal.vstr s) - 1, by have := goVal_sizeOf_pos (GoVal.vstr s); omega⟩
  rw [hf]
  rfl

theorem parsedVal_stdVal {v : GoVal} (h : parsedVal v = true) :
    parsedVal (stdVal v) = true := by
  cases v with
  | varr l =>
    rw [stdVal]
    cases hc : ConvertSliceToStrings l with
    | some ss => exact parsedVal_vstr _
    | none => exact h
  | vstr s => exact h
  | vnum x => exact h
  | vbool b => exact h
  | vnull => exact h
  | vobj m => exact h
  | vmapArr l => exact h

theorem parsedObj_mapDel {m : Obj} (h : parsedObj m = true) (k : String) :
    parsedObj (mapDel m k) = true := by
  rcases parsedObj_iff.mp h with ⟨hn, hv⟩
  exact parsedObj_iff.mpr ⟨nodup_keys_mapDel k hn,
    fun p hp => hv p (mem_mapDel.mp hp).1⟩

theorem parsedObj_stdMF {m : Obj} (h : parsedObj m = true) :
    parsedObj (standardizeMatchFeature m) = true := by
  rcases parsedObj_iff.mp h with ⟨hn, hv⟩
  refine parsedObj_iff.mpr ⟨nodup_keys_stdMF hn, fun p hp => ?_⟩
  obtain ⟨e, he, hpe⟩ := stdMF_origin hp
  have h2 : p.2 = stdVal e.2 := congrArg Prod.snd hpe
  rw [h2]
  exact parsedVal_stdVal (hv e he)

theorem mem_reparseObj {m : Obj} {p : String × GoVal} :
    p ∈ reparseObj m ↔ ∃ q ∈ m, p = (q.1, reparseVal q.2) := by
  unfold reparseObj
  constructor
  · intro h
    rcases List.mem_map.mp h with ⟨q, hq, he⟩
    exact ⟨q, hq, he.symm⟩
  · rintro ⟨q, hq, he⟩
    exact he ▸ List.mem_map.mpr ⟨q, hq, rfl⟩

theorem stdVal_cons_vobj (x : Obj) (t : List GoVal) :
    stdVal (.varr (GoVal.vobj x :: t)) = .varr (GoVal.vobj x :: t) := rfl

/-! ### cleanFeatures facts -/

theorem cleanFeatures_some :
    ∀ {fs : List GoVal} {cfs : List Obj}, cleanFeatures fs = some cfs →
      ∃ objs : List Obj, fs = objs.map GoVal.vobj ∧
        cfs = objs.map (fun f => standardizeMatchFeature (mapDel f "ordinal")) := by
  intro fs
  induction fs with
  | nil =>
    intro cfs h
    rw [cleanFeatures] at h
    cases h
    exact ⟨[], rfl, rfl⟩
  | cons v rest ih =>
    intro cfs h
    cases v with
    | vobj f =>
      rw [cleanFeatures] at h
      rcases Option.map_eq_some'.mp h with ⟨cfs', hcfs', he⟩
      obtain ⟨objs, ho1, ho2⟩ := ih hcfs'
      exact ⟨f :: objs, by rw [List.map_cons, ← ho1], by rw [← he, List.map_cons, ← ho2]⟩
    | vstr s => exact Option.noConfusion h
    | vnum x => exact Option.noConfusion h
    | vbool b => exact Option.noConfusion h
    | vnull => exact Option.noConfusion h
    | varr l' => exact Option.noConfusion h
    | vmapArr l' => exact Option.noConfusion h

theorem cleanFeatures_map_vobj (objs : List Obj) :
    cleanFeatures (objs.map GoVal.vobj) =
      some (objs.map (fun f => standardizeMatchFeature (mapDel f "ordinal"))) := by
  induction objs with
  | nil => rfl
  | cons f rest ih => rw [List.map_cons, cleanFeatures, ih]; rfl

theorem cleanFeatures_length {fs : List GoVal} {cfs : List Obj}
    (h : cleanFeatures fs = some cfs) : cfs.length = fs.length := by
  obtain ⟨objs, h1, h2⟩ := cleanFeatures_some h
  rw [h1, h2, List.length_map, List.length_map]

theorem cleanMatches_length :
    ∀ {ms : List GoVal} {cms : List Obj}, cleanMatches ms = some cms →
      cms.length = ms.length := by
  intro ms
  induction ms with
  | nil =>
    intro cms h
    rw [cleanMatches_nil] at h
    cases h
    rfl
  | cons v rest ih =>
    intro cms h
    rw [cleanMatches_cons] at h
    rcases Option.bind_eq_some.mp h with ⟨cm, hcm, h2⟩
    rcases Option.map_eq_some'.mp h2 with ⟨cmsR, hcmsR, he⟩
    rw [← he, List.length_cons, List.length_cons, ih hcmsR]

/-! ### Case lemmas for cleanMatch and finishMatch -/

theorem finishMatch_not_varr {m2 : Obj}
    (h : ∀ fs, mapGet m2 "features" ≠ some (.varr fs)) :
    finishMatch m2 = some m2 := by
  unfold finishMatch
  cases hf : mapGet m2 "features" with
  | none => rfl
  | some w =>
    cases w with
    | varr fs => exact absurd hf (h fs)
    | vstr s => rfl
    | vnum x => rfl
    | vbool b => rfl
    | vnull => rfl
    | vobj m' => rfl
    | vmapArr l' => rfl

theorem finishMatch_varr {m2 : Obj} {fs : List GoVal}
    (h : mapGet m2 "features" = some (.varr fs)) :
    finishMatch m2 =
      (cleanFeatures fs).map (fun cfs => mapSet m2 "features" (.vmapArr cfs)) := by
  unfold finishMatch
  rw [h]

theorem cleanMatch_obj_not_varr {m : Obj}
    (h : ∀ l, mapGet (standardizeMatchFeature (mapDel m "ordinal")) "matches" ≠
      some (.varr l)) :
    cleanMatch (.vobj m) =
      finishMatch (standardizeMatchFeature (mapDel m "ordinal")) := by
  rw [cleanMatch_obj]
  cases hm : mapGet (standardizeMatchFeature (mapDel m "ordinal")) "matches" with
  | none => rfl
  | some w =>
    cases w with
    | varr l => exact absurd hm (h l)
    | vstr s => rfl
    | vnum x => rfl
    | vbool b => rfl
    | vnull => rfl
    | vobj m' => rfl
    | vmapArr l' => rfl

theorem cleanMatch_obj_varr {m : Obj} {children : List GoVal}
    (hm : mapGet (standardizeMatchFeature (mapDel m "ordinal")) "matches" =
      some (.varr children)) :
    cleanMatch (.vobj m) =
      ((cleanMatches children).map
        (fun cms =>
          mapSet (standardizeMatchFeature (mapDel m "ordinal")) "matches"
            (.vmapArr cms))).bind finishMatch := by
  rw [cleanMatch_obj, hm]

theorem cleanMatch_obj_some {m cm : Obj} (h : cleanMatch (.vobj m) = some cm) :
    ∃ m2 : Obj,
      ((∃ children cms_c,
          mapGet (standardizeMatchFeature (mapDel m "ordinal")) "matches" =
            some (.varr children) ∧
          cleanMatches children = some cms_c ∧
          m2 = mapSet (standardizeMatchFeature (mapDel m "ordinal")) "matches"
            (.vmapArr cms_c)) ∨
        ((∀ l, mapGet (standardizeMatchFeature (mapDel m "ordinal")) "matches" ≠
            some (.varr l)) ∧
          m2 = standardizeMatchFeature (mapDel m "ordinal"))) ∧
      ((∃ fs cfs, mapGet m2 "features" = some (.varr fs) ∧
          cleanFeatures fs = some cfs ∧
          cm = mapSet m2 "features" (.vmapArr cfs)) ∨
        ((∀ fs, mapGet m2 "features" ≠ some (.varr fs)) ∧ cm = m2)) := by
  have hfm : ∀ m2 : Obj, finishMatch m2 = some cm →
      ((∃ fs cfs, mapGet m2 "features" = some (.varr fs) ∧
          cleanFeatures fs = some cfs ∧
          cm = mapSet m2 "features" (.vmapArr cfs)) ∨
        ((∀ fs, mapGet m2 "features" ≠ some (.varr fs)) ∧ cm = m2)) := by
    intro m2 hf
    cases hfv : mapGet m2 "features" with
    | none =>
      refine Or.inr ⟨(fun fs hfs => nomatch hfs), ?_⟩
      rw [finishMatch_not_varr (fun fs hfs => by rw [hfv] at hfs; cases hfs)] at hf
      exact (Option.some.injEq _ _ ▸ hf).symm
    | some w =>
      cases w with
      | varr fs =>
        rw [finishMatch_varr hfv] at hf
        rcases Option.map_eq_some'.mp hf with ⟨cfs, hcfs, he⟩
        exact Or.inl ⟨fs, cfs, rfl, hcfs, he.symm⟩
      | vstr s =>
        refine Or.inr ⟨(fun fs hfs => nomatch hfs), ?_⟩
        rw [finishMatch_not_varr (fun fs hfs => by rw [hfv] at hfs; cases hfs)] at hf
        exact (Option.some.injEq _ _ ▸ hf).symm
      | vnum x =>
        refine Or.inr ⟨(fun fs hfs => nomatch hfs), ?_⟩
        rw [finishMatch_not_varr (fun fs hfs => by rw [hfv] at hfs; cases hfs)] at hf
        exact (Option.some.injEq _ _ ▸ hf).symm
      | vbool b =>
        refine Or.inr ⟨(fun fs hfs => nomatch hfs), ?_⟩
        rw [finishMatch_not_varr (fun fs hfs => by rw [hfv] at hfs; cases hfs)] at hf
        exact (Option.some.injEq _ _ ▸ hf).symm
      | vnull =>
        refine Or.inr ⟨(fun fs hfs => nomatch hfs), ?_⟩
        rw [finishMatch_not_varr (fun fs hfs => by rw [hfv] at hfs; cases hfs)] at hf
        exact (Option.some.injEq _ _ ▸ hf).symm
      | vobj m' =>
        refine Or.inr ⟨(fun fs hfs => nomatch hfs), ?_⟩
        rw [finishMatch_not_varr (fun fs hfs => by rw [hfv] at hfs; cases hfs)] at hf
        exact (Option.some.injEq _ _ ▸ hf).symm
      | vmapArr l' =>
        refine Or.inr ⟨(fun fs hfs => nomatch hfs), ?_⟩
        rw [finishMatch_not_varr (fun fs hfs => by rw [hfv] at hfs; cases hfs)] at hf
        exact (Option.some.injEq _ _ ▸ hf).symm
  cases hm : mapGet (standardizeMatchFeature (mapDel m "ordinal")) "matches" with
  | none =>
    rw [cleanMatch_obj_not_varr (fun l hl => by rw [hm] at hl; cases hl)] at h
    exact ⟨_, Or.inr ⟨(fun l hl => nomatch hl), rfl⟩, hfm _ h⟩
  | some w =>
    cases w with
    | varr children =>
      rw [cleanMatch_obj_varr hm] at h
      rcases Option.bind_eq_some.mp h with ⟨m2, hm2, hf⟩
      rcases Option.map_eq_some'.mp hm2 with ⟨cms_c, hcms, he⟩
      exact ⟨m2, Or.inl ⟨children, cms_c, rfl, hcms, he.symm⟩, hfm _ hf⟩
    | vstr s =>
      rw [cleanMatch_obj_not_varr (fun l hl => by rw [hm] at hl; cases hl)] at h
      exact ⟨_, Or.inr ⟨(fun l hl => nomatch hl), rfl⟩, hfm _ h⟩
    | vnum x =>
      rw [cleanMatch_obj_not_varr (fun l hl => by rw [hm] at hl; cases hl)] at h
      exact ⟨_, Or.inr ⟨(fun l hl => nomatch hl), rfl⟩, hfm _ h⟩
    | vbool b =>
      rw [cleanMatch_obj_not_varr (fun l hl => by rw [hm] at hl; cases hl)] at h
      exact ⟨_, Or.inr ⟨(fun l hl => nomatch hl), rfl⟩, hfm _ h⟩
    | vnull =>
      rw [cleanMatch_obj_not_varr (fun l hl => by rw [hm] at hl; cases hl)] at h
      exact ⟨_, Or.inr ⟨(fun l hl => nomatch hl), rfl⟩, hfm _ h⟩
    | vobj m' =>
      rw [cleanMatch_obj_not_varr (fun l hl => by rw [hm] at hl; cases hl)] at h
      exact ⟨_, Or.inr ⟨(fun l hl => nomatch hl), rfl⟩, hfm _ h⟩
    | vmapArr l' =>
      rw [cleanMatch_obj_not_varr (fun l hl => by rw [hm] at hl; cases hl)] at h
      exact ⟨_, Or.inr ⟨(fun l hl => nomatch hl), rfl⟩, hfm _ h⟩

/-! ### Ordinal removal at every depth -/

theorem mapGet_parsed {m : Obj} (h : parsedObj m = true) {k : String} {v : GoVal}
    (hv : mapGet m k = some v) : parsedVal v = true :=
  (parsedObj_iff.mp h).2 _ (mapGet_eq_some_mem hv)

theorem ordFree_matches_branch_vmapArr {o : Option GoVal} {l : List Obj}
    (h : o = some (.vmapArr l)) (hall : ∀ m' ∈ l, matchOrdFree m' = true) :
    ordMatchesBranch o = true := by
  subst h
  show l.all matchOrdFree = true
  simpa [List.all_eq_true] using hall

theorem ordFree_matches_branch_other {o : Option GoVal}
    (h : ∀ l : List Obj, o ≠ some (.vmapArr l)) :
    ordMatchesBranch o = true := by
  cases o with
  | none => rfl
  | some w =>
    cases w with
    | vmapArr l => exact absurd rfl (h l)
    | vstr s => rfl
    | vnum x => rfl
    | vbool b => rfl
    | vnull => rfl
    | varr l' => rfl
    | vobj m' => rfl

theorem ordFree_features_branch_vmapArr {o : Option GoVal} {fs : List Obj}
    (h : o = some (.vmapArr fs)) (hall : ∀ f ∈ fs, mapGet f "ordinal" = none) :
    ordFeaturesBranch o = true := by
  subst h
  show fs.all (fun f => (mapGet f "ordinal").isNone) = true
  simp only [List.all_eq_true]
  intro f hf
  rw [hall f hf]
  rfl

theorem ordFree_features_branch_other {o : Option GoVal}
    (h : ∀ fs : List Obj, o ≠ some (.vmapArr fs)) :
    ordFeaturesBranch o = true := by
  cases o with
  | none => rfl
  | some w =>
    cases w with
    | vmapArr l => exact absurd rfl (h l)
    | vstr s => rfl
    | vnum x => rfl
    | vbool b => rfl
    | vnull => rfl
    | varr l' => rfl
    | vobj m' => rfl

theorem cleanMatches_ordFree :
    ∀ (n : Nat) (ms : List GoVal), sizeOf ms ≤ n →
      (∀ v ∈ ms, parsedVal v = true) →
      ∀ cms : List Obj, cleanMatches ms = some cms →
      ∀ cm ∈ cms, matchOrdFree cm = true := by
  intro n
  induction n with
  | zero =>
    intro ms h
    exact absurd h (by have := list_sizeOf_pos ms; omega)
  | succ n ih =>
    intro ms hn hp cms hcms cm hcm
    cases ms with
    | nil =>
      rw [cleanMatches_nil] at hcms
      cases hcms
      exact absurd hcm (List.not_mem_nil cm)
    | cons v rest =>
      have hs : sizeOf (v :: rest) = 1 + sizeOf v + sizeOf rest := by simp
      have hsv := goVal_sizeOf_pos v
      rw [hs] at hn
      rw [cleanMatches_cons] at hcms
      rcases Option.bind_eq_some.mp hcms with ⟨cm0, hcm0, h2⟩
      rcases Option.map_eq_some'.mp h2 with ⟨cmsR, hcmsR, he⟩
      rw [← he] at hcm
      rcases List.mem_cons.mp hcm with heq | hcmR
      · subst heq
        cases v with
        | vobj m =>
          have hpm : parsedObj m = true := hp (.vobj m) (List.mem_cons_self _ _)
          have hvm : sizeOf (GoVal.vobj m) = 1 + sizeOf m := by simp
          rw [hvm] at hn
          obtain ⟨m2, hstage1, hstage2⟩ := cleanMatch_obj_some hcm0
          have hm1parsed :
              parsedObj (standardizeMatchFeature (mapDel m "ordinal")) = true :=
            parsedObj_stdMF (parsedObj_mapDel hpm "ordinal")
          have hm1ord := mapGet_stdMF_del_ordinal m
          have hm2ord : mapGet m2 "ordinal" = none := by
            rcases hstage1 with ⟨children, cms_c, hmm, hcl, hm2⟩ | ⟨hnv, hm2⟩
            · rw [hm2,
                mapGet_mapSet_ne (by decide : ("ordinal" : String) ≠ "matches"),
                hm1ord]
            · rw [hm2, hm1ord]
          have hm2feat : mapGet m2 "features" =
              mapGet (standardizeMatchFeature (mapDel m "ordinal")) "features" := by
            rcases hstage1 with ⟨children, cms_c, hmm, hcl, hm2⟩ | ⟨hnv, hm2⟩
            · rw [hm2,
                mapGet_mapSet_ne (by decide : ("features" : String) ≠ "matches")]
            · rw [hm2]
          have hcmOrd : mapGet cm "ordinal" = none := by
            rcases hstage2 with ⟨fs, cfs, hfv, hcf, hcmEq⟩ | ⟨hnf, hcmEq⟩
            · rw [hcmEq,
                mapGet_mapSet_ne (by decide : ("ordinal" : String) ≠ "features"),
                hm2ord]
            · rw [hcmEq, hm2ord]
          have hcmMatches : mapGet cm "matches" = mapGet m2 "matches" := by
            rcases hstage2 with ⟨fs, cfs, hfv, hcf, hcmEq⟩ | ⟨hnf, hcmEq⟩
            · rw [hcmEq,
                mapGet_mapSet_ne (by decide : ("matches" : String) ≠ "features")]
            · rw [hcmEq]
          rw [matchOrdFree_eq, hcmOrd]
          simp only [Option.isNone_none, Bool.true_and]
          have hmatchesT : ordMatchesBranch (mapGet cm "matches") = true := by
            rcases hstage1 with ⟨children, cms_c, hmm, hcl, hm2⟩ | ⟨hnv, hm2⟩
            · have hself : mapGet m2 "matches" = some (.vmapArr cms_c) := by
                rw [hm2, mapGet_mapSet_self]
              refine ordFree_matches_branch_vmapArr (by rw [hcmMatches, hself]) ?_
              obtain ⟨k', hk'⟩ := stdMF_varr_sub hmm
              have hchparsed : parsedVal (.varr children) = true :=
                (parsedObj_iff.mp hpm).2 _ (mem_mapDel.mp hk').1
              have hch := parsedVal_varr_iff.mp hchparsed
              have hcs : sizeOf children < sizeOf m := sizeOf_children_lt hmm
              exact ih children (by omega) hch cms_c hcl
            · refine ordFree_matches_branch_other ?_
              intro l hl
              rw [hcmMatches, hm2] at hl
              have hpv := mapGet_parsed hm1parsed hl
              rw [parsedVal_vmapArr] at hpv
              cases hpv
          have hfeatT : ordFeaturesBranch (mapGet cm "features") = true := by
            rcases hstage2 with ⟨fs, cfs, hfv, hcf, hcmEq⟩ | ⟨hnf, hcmEq⟩
            · have hself : mapGet cm "features" = some (.vmapArr cfs) := by
                rw [hcmEq, mapGet_mapSet_self]
              refine ordFree_features_branch_vmapArr hself ?_
              obtain ⟨objs, ho1, ho2⟩ := cleanFeatures_some hcf
              intro f hf
              rw [ho2] at hf
              rcases List.mem_map.mp hf with ⟨f0, hf0, hfe⟩
              rw [← hfe]
              exact mapGet_stdMF_del_ordinal f0
            · refine ordFree_features_branch_other ?_
              intro l hl
              rw [hcmEq, hm2feat] at hl
              have hpv := mapGet_parsed hm1parsed hl
              rw [parsedVal_vmapArr] at hpv
              cases hpv
          rw [hmatchesT, hfeatT]
          rfl
        | vstr s => exact Option.noConfusion hcm0
        | vnum x => exact Option.noConfusion hcm0
        | vbool b => exact Option.noConfusion hcm0
        | vnull => exact Option.noConfusion hcm0
        | varr l' => exact Option.noConfusion hcm0
        | vmapArr l' => exact Option.noConfusion hcm0
      · exact ih rest (by omega)
          (fun v' hv' => hp v' (List.mem_cons_of_mem _ hv')) cmsR hcmsR cm hcmR

/-! ### The normalized output is a fixed point after a JSON round trip -/

theorem stdKey_matches : stdKey "matches" = "matches" := rfl

theorem stdKey_features : stdKey "features" = "features" := rfl

theorem stdVal_varr_empty : stdVal (.varr []) = .vstr "" := rfl

theorem stdMF_id_reparse {c : Obj}
    (hn : (keys c).Nodup)
    (hfix : ∀ p ∈ c, stdKey p.1 = p.1 ∧ stdVal (reparseVal p.2) = reparseVal p.2) :
    standardizeMatchFeature (reparseObj c) = reparseObj c := by
  apply stdMF_id
  · rw [keys_reparseObj]; exact hn
  · intro p hp
    rcases mem_reparseObj.mp hp with ⟨q, hq, he⟩
    rcases hfix q hq with ⟨h1, h2⟩
    subst he
    exact ⟨h1, h2⟩

theorem cleanFeature_reparse_id {f0 : Obj} (hp : parsedObj f0 = true) :
    standardizeMatchFeature
      (mapDel (reparseObj (standardizeMatchFeature (mapDel f0 "ordinal"))) "ordinal") =
      reparseObj (standardizeMatchFeature (mapDel f0 "ordinal")) := by
  have hcfp : parsedObj (standardizeMatchFeature (mapDel f0 "ordinal")) = true :=
    parsedObj_stdMF (parsedObj_mapDel hp "ordinal")
  have hord := mapGet_stdMF_del_ordinal f0
  have hdel : mapDel (reparseObj (standardizeMatchFeature (mapDel f0 "ordinal"))) "ordinal" =
      reparseObj (standardizeMatchFeature (mapDel f0 "ordinal")) :=
    mapDel_eq_self (by rw [mapGet_reparseObj, hord]; rfl)
  rw [hdel]
  apply stdMF_id_reparse (parsedObj_iff.mp hcfp).1
  intro p hpmem
  rcases stdMF_entries_fixed hpmem with ⟨h1, h2⟩
  have hpv : parsedVal p.2 = true := (parsedObj_iff.mp hcfp).2 p hpmem
  rw [reparseVal_of_parsed hpv]
  exact ⟨h1, h2⟩

theorem cleanFeatures_reparse_fix {fs : List GoVal} {cfs : List Obj}
    (hp : ∀ v ∈ fs, parsedVal v = true)
    (h : cleanFeatures fs = some cfs) :
    cleanFeatures (cfs.map (fun f => GoVal.vobj (reparseObj f))) =
      some (cfs.map reparseObj) := by
  obtain ⟨objs, ho1, ho2⟩ := cleanFeatures_some h
  have hmm : cfs.map (fun f => GoVal.vobj (reparseObj f)) =
      (cfs.map reparseObj).map GoVal.vobj := by
    rw [List.map_map]
    rfl
  rw [hmm, cleanFeatures_map_vobj]
  congr 1
  rw [List.map_map]
  have : ∀ cf ∈ cfs,
      ((fun f => standardizeMatchFeature (mapDel f "ordinal")) ∘ reparseObj) cf =
        reparseObj cf := by
    intro cf hcf
    rw [ho2] at hcf
    rcases List.mem_map.mp hcf with ⟨f0, hf0, hfe⟩
    have hpf0 : parsedObj f0 = true := by
      have : GoVal.vobj f0 ∈ fs := by rw [ho1]; exact List.mem_map.mpr ⟨f0, hf0, rfl⟩
      exact hp _ this
    rw [← hfe]
    exact cleanFeature_reparse_id hpf0
  rw [List.map_congr_left this]

theorem mapGet_reparse_not_varr {c : Obj} {k : String}
    (hpv : ∀ w, mapGet c k = some w → parsedVal w = true)
    (hnv : ∀ l, mapGet c k ≠ some (.varr l)) :
    ∀ l, mapGet (reparseObj c) k ≠ some (.varr l) := by
  intro l hl
  rw [mapGet_reparseObj] at hl
  cases hw : mapGet c k with
  | none => rw [hw] at hl; cases hl
  | some w =>
    rw [hw] at hl
    have h1 : reparseVal w = .varr l := Option.some.injEq _ _ ▸ hl
    rw [reparseVal_of_parsed (hpv w hw)] at h1
    exact hnv l (by rw [hw, h1])

theorem varr_mem_stdMF_ne_nil {m0 : Obj} {k : String} {l : List GoVal}
    (h : mapGet (standardizeMatchFeature m0) k = some (.varr l)) : l ≠ [] := by
  intro he
  subst he
  have hmem := mapGet_eq_some_mem h
  have hfix : stdVal (GoVal.varr ([] : List GoVal)) = GoVal.varr [] :=
    (stdMF_entries_fixed hmem).2
  rw [stdVal_varr_empty] at hfix
  exact GoVal.noConfusion hfix

theorem map_vobj_reparse_congr {l1 l2 : List Obj}
    (h : l1.map reparseObj = l2.map reparseObj) :
    l1.map (fun mm => GoVal.vobj (reparseObj mm)) =
      l2.map (fun mm => GoVal.vobj (reparseObj mm)) := by
  have h1 : l1.map (fun mm => GoVal.vobj (reparseObj mm)) =
      (l1.map reparseObj).map GoVal.vobj := by rw [List.map_map]; rfl
  have h2 : l2.map (fun mm => GoVal.vobj (reparseObj mm)) =
      (l2.map reparseObj).map GoVal.vobj := by rw [List.map_map]; rfl
  rw [h1, h2, h]

theorem reparseVal_vmapArr_reparse (l : List Obj) :
    reparseVal (.vmapArr (l.map reparseObj)) = reparseVal (.vmapArr l) := by
  rw [reparseVal_vmapArr, reparseVal_vmapArr]
  refine congrArg GoVal.varr ?_
  rw [List.map_map]
  refine List.map_congr_left (fun mm _ => ?_)
  show GoVal.vobj (reparseObj (reparseObj mm)) = GoVal.vobj (reparseObj mm)
  rw [reparseObj_idem]

theorem cleanMatch_reparse_fix_head {m cm0 : Obj}
    (hpm : parsedObj m = true)
    (hcm0 : cleanMatch (.vobj m) = some cm0)
    (hchFP : ∀ children cms_c,
        mapGet (standardizeMatchFeature (mapDel m "ordinal")) "matches" =
          some (.varr children) →
        cleanMatches children = some cms_c →
        ∃ cms_c', cleanMatches (cms_c.map (fun mm => GoVal.vobj (reparseObj mm))) =
            some cms_c' ∧
          cms_c'.map reparseObj = cms_c.map reparseObj) :
    ∃ cm', cleanMatch (.vobj (reparseObj cm0)) = some cm' ∧
      reparseObj cm' = reparseObj cm0 := by
  obtain ⟨m2, hstage1, hstage2⟩ := cleanMatch_obj_some hcm0
  have hm1parsed : parsedObj (standardizeMatchFeature (mapDel m "ordinal")) = true :=
    parsedObj_stdMF (parsedObj_mapDel hpm "ordinal")
  have hm1nodup := (parsedObj_iff.mp hm1parsed).1
  have hm1ord := mapGet_stdMF_del_ordinal m
  -- facts about m2
  have hm2ord : mapGet m2 "ordinal" = none := by
    rcases hstage1 with ⟨children, cms_c, hmm, hcl, hm2⟩ | ⟨hnv, hm2⟩
    · rw [hm2, mapGet_mapSet_ne (by decide : ("ordinal" : String) ≠ "matches"), hm1ord]
    · rw [hm2, hm1ord]
  have hm2feat : mapGet m2 "features" =
      mapGet (standardizeMatchFeature (mapDel m "ordinal")) "features" := by
    rcases hstage1 with ⟨children, cms_c, hmm, hcl, hm2⟩ | ⟨hnv, hm2⟩
    · rw [hm2, mapGet_mapSet_ne (by decide : ("features" : String) ≠ "matches")]
    · rw [hm2]
  have hm2nodup : (keys m2).Nodup := by
    rcases hstage1 with ⟨children, cms_c, hmm, hcl, hm2⟩ | ⟨hnv, hm2⟩
    · rw [hm2]; exact nodup_keys_mapSet _ _ hm1nodup
    · rw [hm2]; exact hm1nodup
  have hm2fixrep : ∀ p ∈ m2,
      stdKey p.1 = p.1 ∧ stdVal (reparseVal p.2) = reparseVal p.2 := by
    rcases hstage1 with ⟨children, cms_c, hmm, hcl, hm2⟩ | ⟨hnv, hm2⟩
    · intro p hp
      rw [hm2] at hp
      rcases mem_mapSet hp with heq | hmem
      · subst heq
        refine ⟨stdKey_matches, ?_⟩
        have hchne : children ≠ [] := varr_mem_stdMF_ne_nil hmm
        have hlen := cleanMatches_length hcl
        have hcne : cms_c ≠ [] := by
          intro he
          subst he
          cases children with
          | nil => exact hchne rfl
          | cons a b => simp at hlen
        show stdVal (reparseVal (GoVal.vmapArr cms_c)) = reparseVal (GoVal.vmapArr cms_c)
        rw [reparseVal_vmapArr]
        cases cms_c with
        | nil => exact absurd rfl hcne
        | cons c0 crest =>
          rw [List.map_cons]
          exact stdVal_cons_vobj _ _
      · rcases stdMF_entries_fixed hmem with ⟨h1, h2⟩
        have hpv : parsedVal p.2 = true := (parsedObj_iff.mp hm1parsed).2 p hmem
        rw [reparseVal_of_parsed hpv]
        exact ⟨h1, h2⟩
    · intro p hp
      rw [hm2] at hp
      rcases stdMF_entries_fixed hp with ⟨h1, h2⟩
      have hpv : parsedVal p.2 = true := (parsedObj_iff.mp hm1parsed).2 p hp
      rw [reparseVal_of_parsed hpv]
      exact ⟨h1, h2⟩
  -- facts about cm0
  have hcmord : mapGet cm0 "ordinal" = none := by
    rcases hstage2 with ⟨fs, cfs, hfv, hcf, hcmEq⟩ | ⟨hnf, hcmEq⟩
    · rw [hcmEq, mapGet_mapSet_ne (by decide : ("ordinal" : String) ≠ "features"), hm2ord]
    · rw [hcmEq, hm2ord]
  have hcmMatches : mapGet cm0 "matches" = mapGet m2 "matches" := by
    rcases hstage2 with ⟨fs, cfs, hfv, hcf, hcmEq⟩ | ⟨hnf, hcmEq⟩
    · rw [hcmEq, mapGet_mapSet_ne (by decide : ("matches" : String) ≠ "features")]
    · rw [hcmEq]
  have hcmnodup : (keys cm0).Nodup := by
    rcases hstage2 with ⟨fs, cfs, hfv, hcf, hcmEq⟩ | ⟨hnf, hcmEq⟩
    · rw [hcmEq]; exact nodup_keys_mapSet _ _ hm2nodup
    · rw [hcmEq]; exact hm2nodup
  have hcmfixrep : ∀ p ∈ cm0,
      stdKey p.1 = p.1 ∧ stdVal (reparseVal p.2) = reparseVal p.2 := by
    rcases hstage2 with ⟨fs, cfs, hfv, hcf, hcmEq⟩ | ⟨hnf, hcmEq⟩
    · intro p hp
      rw [hcmEq] at hp
      rcases mem_mapSet hp with heq | hmem
      · subst heq
        refine ⟨stdKey_features, ?_⟩
        have hfs1 : mapGet (standardizeMatchFeature (mapDel m "ordinal")) "features" =
            some (.varr fs) := by rw [← hm2feat, hfv]
        have hfne : fs ≠ [] := varr_mem_stdMF_ne_nil hfs1
        have hlen := cleanFeatures_length hcf
        have hcfne : cfs ≠ [] := by
          intro he
          subst he
          cases fs with
          | nil => exact hfne rfl
          | cons a b => simp at hlen
        show stdVal (reparseVal (GoVal.vmapArr cfs)) = reparseVal (GoVal.vmapArr cfs)
        rw [reparseVal_vmapArr]
        cases cfs with
        | nil => exact absurd rfl hcfne
        | cons c0 crest =>
          rw [List.map_cons]
          exact stdVal_cons_vobj _ _
      · exact hm2fixrep p hmem
    · intro p hp
      rw [hcmEq] at hp
      exact hm2fixrep p hp
  -- second-pass preliminaries
  have hrmdel : mapDel (reparseObj cm0) "ordinal" = reparseObj cm0 :=
    mapDel_eq_self (by rw [mapGet_reparseObj, hcmord]; rfl)
  have hrmstd : standardizeMatchFeature (reparseObj cm0) = reparseObj cm0 :=
    stdMF_id_reparse hcmnodup hcmfixrep
  have hreprm := reparseObj_idem cm0
  -- the features part of the second pass, shared by both matches branches
  have hfeatpass : ∀ m2' : Obj,
      mapGet m2' "features" = (mapGet cm0 "features").map reparseVal →
      reparseObj m2' = reparseObj cm0 →
      ∃ cm', finishMatch m2' = some cm' ∧ reparseObj cm' = reparseObj cm0 := by
    intro m2' hfe hrep
    rcases hstage2 with ⟨fs, cfs, hfv, hcf, hcmEq⟩ | ⟨hnf, hcmEq⟩
    · have hcm0f : mapGet cm0 "features" = some (.vmapArr cfs) := by
        rw [hcmEq, mapGet_mapSet_self]
      have hm2'f : mapGet m2' "features" =
          some (.varr (cfs.map (fun f => GoVal.vobj (reparseObj f)))) := by
        rw [hfe, hcm0f]
        simp only [Option.map_some']
        rw [reparseVal_vmapArr]
      have hfs1 : mapGet (standardizeMatchFeature (mapDel m "ordinal")) "features" =
          some (.varr fs) := by rw [← hm2feat, hfv]
      have hfsparsed : ∀ v ∈ fs, parsedVal v = true := by
        have := mapGet_parsed hm1parsed hfs1
        exact parsedVal_varr_iff.mp this
      have hcf2 := cleanFeatures_reparse_fix hfsparsed hcf
      refine ⟨mapSet m2' "features" (.vmapArr (cfs.map reparseObj)), ?_, ?_⟩
      · rw [finishMatch_varr hm2'f, hcf2]
        rfl
      · rw [reparseObj_mapSet, hrep]
        have hval : reparseVal (.vmapArr (cfs.map reparseObj)) =
            reparseVal (.vmapArr cfs) := reparseVal_vmapArr_reparse cfs
        rw [hval]
        apply mapSet_same
        rw [mapGet_reparseObj, hcm0f]
        rfl
    · have hpv : ∀ w, mapGet cm0 "features" = some w → parsedVal w = true := by
        intro w hw
        rw [hcmEq, hm2feat] at hw
        exact mapGet_parsed hm1parsed hw
      have hnf0 : ∀ l, mapGet cm0 "features" ≠ some (.varr l) := by
        intro l hl
        rw [hcmEq] at hl
        exact hnf l hl
      have hnrm : ∀ l, mapGet (reparseObj cm0) "features" ≠ some (.varr l) :=
        mapGet_reparse_not_varr hpv hnf0
      have hnm2' : ∀ l, mapGet m2' "features" ≠ some (.varr l) := by
        intro l hl
        rw [hfe, ← mapGet_reparseObj] at hl
        exact hnrm l hl
      exact ⟨m2', by rw [finishMatch_not_varr hnm2'], hrep⟩
  -- main split on the matches stage
  rcases hstage1 with ⟨children, cms_c, hmm, hcl, hm2eq⟩ | ⟨hnv, hm2eq⟩
  · have hm2m : mapGet m2 "matches" = some (.vmapArr cms_c) := by
      rw [hm2eq, mapGet_mapSet_self]
    have hcm0m : mapGet cm0 "matches" = some (.vmapArr cms_c) := by
      rw [hcmMatches, hm2m]
    have hrmm : mapGet (reparseObj cm0) "matches" =
        some (.varr (cms_c.map (fun mm => GoVal.vobj (reparseObj mm)))) := by
      rw [mapGet_reparseObj, hcm0m]
      simp only [Option.map_some']
      rw [reparseVal_vmapArr]
    obtain ⟨cms_c', hc1, hc2⟩ := hchFP children cms_c hmm hcl
    have hstep : cleanMatch (.vobj (reparseObj cm0)) =
        finishMatch (mapSet (reparseObj cm0) "matches" (.vmapArr cms_c')) := by
      rw [cleanMatch_obj_varr (by rw [hrmdel, hrmstd]; exact hrmm)]
      rw [hrmdel, hrmstd, hc1]
      rfl
    have hm2'rep : reparseObj (mapSet (reparseObj cm0) "matches" (.vmapArr cms_c')) =
        reparseObj cm0 := by
      rw [reparseObj_mapSet, hreprm]
      have hval : reparseVal (.vmapArr cms_c') = reparseVal (.vmapArr cms_c) := by
        rw [reparseVal_vmapArr, reparseVal_vmapArr]
        exact congrArg GoVal.varr (map_vobj_reparse_congr hc2)
      rw [hval]
      apply mapSet_same
      rw [mapGet_reparseObj, hcm0m]
      rfl
    have hm2'feat : mapGet (mapSet (reparseObj cm0) "matches" (.vmapArr cms_c'))
        "features" = (mapGet cm0 "features").map reparseVal := by
      rw [mapGet_mapSet_ne (by decide : ("features" : String) ≠ "matches"),
        mapGet_reparseObj]
    obtain ⟨cm', hfin, hrep⟩ := hfeatpass _ hm2'feat hm2'rep
    exact ⟨cm', by rw [hstep]; exact hfin, hrep⟩
  · have hpvm : ∀ w, mapGet cm0 "matches" = some w → parsedVal w = true := by
      intro w hw
      rw [hcmMatches, hm2eq] at hw
      exact mapGet_parsed hm1parsed hw
    have hnv0 : ∀ l, mapGet cm0 "matches" ≠ some (.varr l) := by
      intro l hl
      rw [hcmMatches, hm2eq] at hl
      exact hnv l hl
    have hnrm : ∀ l, mapGet (reparseObj cm0) "matches" ≠ some (.varr l) :=
      mapGet_reparse_not_varr hpvm hnv0
    have hstep : cleanMatch (.vobj (reparseObj cm0)) =
        finishMatch (reparseObj cm0) := by
      rw [cleanMatch_obj_not_varr (by rw [hrmdel, hrmstd]; exact hnrm)]
      rw [hrmdel, hrmstd]
    have hrmfeat : mapGet (reparseObj cm0) "features" =
        (mapGet cm0 "features").map reparseVal := mapGet_reparseObj cm0 "features"
    obtain ⟨cm', hfin, hrep⟩ := hfeatpass _ hrmfeat hreprm
    exact ⟨cm', by rw [hstep]; exact hfin, hrep⟩

theorem cleanMatches_reparse_fix :
    ∀ (n : Nat) (ms : List GoVal), sizeOf ms ≤ n →
      (∀ v ∈ ms, parsedVal v = true) →
      ∀ cms : List Obj, cleanMatches ms = some cms →
      ∃ cms', cleanMatches (cms.map (fun mm => GoVal.vobj (reparseObj mm))) =
          some cms' ∧
        cms'.map reparseObj = cms.map reparseObj := by
  intro n
  induction n with
  | zero =>
    intro ms h
    exact absurd h (by have := list_sizeOf_pos ms; omega)
  | succ n ih =>
    intro ms hn hp cms hcms
    cases ms with
    | nil =>
      rw [cleanMatches_nil] at hcms
      cases hcms
      exact ⟨[], cleanMatches_nil, rfl⟩
    | cons v rest =>
      have hs : sizeOf (v :: rest) = 1 + sizeOf v + sizeOf rest := by simp
      have hsv := goVal_sizeOf_pos v
      rw [hs] at hn
      rw [cleanMatches_cons] at hcms
      rcases Option.bind_eq_some.mp hcms with ⟨cm0, hcm0, h2⟩
      rcases Option.map_eq_some'.mp h2 with ⟨cmsR, hcmsR, he⟩
      subst he
      cases v with
      | vobj m =>
        have hpm : parsedObj m = true := hp _ (List.mem_cons_self _ _)
        have hvm : sizeOf (GoVal.vobj m) = 1 + sizeOf m := by simp
        rw [hvm] at hn
        have hchFP : ∀ children cms_c,
            mapGet (standardizeMatchFeature (mapDel m "ordinal")) "matches" =
              some (.varr children) →
            cleanMatches children = some cms_c →
            ∃ cms_c',
              cleanMatches (cms_c.map (fun mm => GoVal.vobj (reparseObj mm))) =
                some cms_c' ∧
              cms_c'.map reparseObj = cms_c.map reparseObj := by
          intro children cms_c hmm hcl
          obtain ⟨k', hk'⟩ := stdMF_varr_sub hmm
          have hchparsed := parsedVal_varr_iff.mp
            ((parsedObj_iff.mp hpm).2 _ (mem_mapDel.mp hk').1)
          have hcs := sizeOf_children_lt hmm
          exact ih children (by omega) hchparsed cms_c hcl
        obtain ⟨cm', hhead, hheadrep⟩ := cleanMatch_reparse_fix_head hpm hcm0 hchFP
        obtain ⟨cmsR', htail, htailrep⟩ := ih rest (by omega)
          (fun v' hv' => hp v' (List.mem_cons_of_mem _ hv')) cmsR hcmsR
        refine ⟨cm' :: cmsR', ?_, ?_⟩
        · rw [List.map_cons, cleanMatches_cons, hhead, htail]
          rfl
        · rw [List.map_cons, List.map_cons, hheadrep, htailrep]
      | vstr s => exact Option.noConfusion hcm0
      | vnum x => exact Option.noConfusion hcm0
      | vbool b => exact Option.noConfusion hcm0
      | vnull => exact Option.noConfusion hcm0
      | varr l' => exact Option.noConfusion hcm0
      | vmapArr l' => exact Option.noConfusion hcm0

/-! ### delAll facts and the rule / policy level -/

theorem mapGet_delAll_none :
    ∀ (ks : List String) (m : Obj) (k : String), mapGet m k = none →
      mapGet (delAll m ks) k = none := by
  intro ks
  induction ks with
  | nil => intro m k h; exact h
  | cons k0 rest ih =>
    intro m k h
    show mapGet (delAll (mapDel m k0) rest) k = none
    by_cases he : k = k0
    · exact ih _ _ (by rw [he]; exact mapGet_mapDel_self m k0)
    · exact ih _ _ (by rw [mapGet_mapDel_ne he]; exact h)

theorem mapGet_delAll_mem :
    ∀ (ks : List String) (m : Obj) (k : String), k ∈ ks →
      mapGet (delAll m ks) k = none := by
  intro ks
  induction ks with
  | nil => intro m k h; exact absurd h (List.not_mem_nil k)
  | cons k0 rest ih =>
    intro m k h
    show mapGet (delAll (mapDel m k0) rest) k = none
    rcases List.mem_cons.mp h with he | hm
    · exact mapGet_delAll_none rest _ _ (by rw [he]; exact mapGet_mapDel_self m k0)
    · exact ih _ _ hm

theorem mapGet_delAll_not_mem :
    ∀ (ks : List String) (m : Obj) (k : String), k ∉ ks →
      mapGet (delAll m ks) k = mapGet m k := by
  intro ks
  induction ks with
  | nil => intro m k _; rfl
  | cons k0 rest ih =>
    intro m k h
    show mapGet (delAll (mapDel m k0) rest) k = mapGet m k
    rw [ih _ _ (fun hm => h (List.mem_cons_of_mem _ hm)),
      mapGet_mapDel_ne (fun he => h (by rw [he]; exact List.mem_cons_self _ _))]

theorem delAll_eq_self :
    ∀ (ks : List String) (m : Obj), (∀ k ∈ ks, mapGet m k = none) →
      delAll m ks = m := by
  intro ks
  induction ks with
  | nil => intro m _; rfl
  | cons k0 rest ih =>
    intro m h
    show delAll (mapDel m k0) rest = m
    rw [mapDel_eq_self (h k0 (List.mem_cons_self _ _))]
    exact ih m (fun k hk => h k (List.mem_cons_of_mem _ hk))

theorem parsedObj_delAll :
    ∀ (ks : List String) (m : Obj), parsedObj m = true →
      parsedObj (delAll m ks) = true := by
  intro ks
  induction ks with
  | nil => intro m h; exact h
  | cons k0 rest ih =>
    intro m h
    exact ih _ (parsedObj_mapDel h k0)

theorem reparseObj_delAll :
    ∀ (ks : List String) (m : Obj),
      reparseObj (delAll m ks) = delAll (reparseObj m) ks := by
  intro ks
  induction ks with
  | nil => intro m; rfl
  | cons k0 rest ih =>
    intro m
    show reparseObj (delAll (mapDel m k0) rest) = delAll (mapDel (reparseObj m) k0) rest
    rw [ih, reparseObj_mapDel]

theorem cleanRules_nil : cleanRules [] = some [] := rfl

theorem cleanRules_cons_obj (m : Obj) (rest : List GoVal) :
    cleanRules (.vobj m :: rest) =
      (match mapGet (ruleDeletes m) "matches" with
       | some (.varr ms) =>
         (cleanMatches ms).map
           (fun cms => mapSet (ruleDeletes m) "matches" (.vmapArr cms))
       | _ => some (ruleDeletes m)).bind
      (fun cr => (cleanRules rest).map (fun crs => cr :: crs)) := rfl

theorem cleanRules_cons_obj_varr {m : Obj} {ms : List GoVal}
    (hm : mapGet (ruleDeletes m) "matches" = some (.varr ms)) (rest : List GoVal) :
    cleanRules (.vobj m :: rest) =
      ((cleanMatches ms).map
        (fun cms => mapSet (ruleDeletes m) "matches" (.vmapArr cms))).bind
      (fun cr => (cleanRules rest).map (fun crs => cr :: crs)) := by
  rw [cleanRules_cons_obj, hm]

theorem cleanRules_cons_obj_not_varr {m : Obj}
    (h : ∀ l, mapGet (ruleDeletes m) "matches" ≠ some (.varr l)) (rest : List GoVal) :
    cleanRules (.vobj m :: rest) =
      (cleanRules rest).map (fun crs => ruleDeletes m :: crs) := by
  rw [cleanRules_cons_obj]
  cases hm : mapGet (ruleDeletes m) "matches" with
  | none => rfl
  | some w =>
    cases w with
    | varr l => exact absurd hm (h l)
    | vstr s => rfl
    | vnum x => rfl
    | vbool b => rfl
    | vnull => rfl
    | vobj m' => rfl
    | vmapArr l' => rfl

theorem cleanRules_cons_some {m : Obj} {rest : List GoVal} {crs : List Obj}
    (h : cleanRules (.vobj m :: rest) = some crs) :
    ∃ r crsR,
      ((∃ ms cms, mapGet (ruleDeletes m) "matches" = some (.varr ms) ∧
          cleanMatches ms = some cms ∧
          r = mapSet (ruleDeletes m) "matches" (.vmapArr cms)) ∨
        ((∀ l, mapGet (ruleDeletes m) "matches" ≠ some (.varr l)) ∧
          r = ruleDeletes m)) ∧
      cleanRules rest = some crsR ∧ crs = r :: crsR := by
  cases hm : mapGet (ruleDeletes m) "matches" with
  | none =>
    have hnv : ∀ l, mapGet (ruleDeletes m) "matches" ≠ some (.varr l) :=
      fun l hl => by rw [hm] at hl; cases hl
    rw [cleanRules_cons_obj_not_varr hnv] at h
    rcases Option.map_eq_some'.mp h with ⟨crsR, hcrsR, he⟩
    exact ⟨_, crsR, Or.inr ⟨(fun l hl => nomatch hl), rfl⟩, hcrsR, he.symm⟩
  | some w =>
    cases w with
    | varr ms =>
      rw [cleanRules_cons_obj_varr hm] at h
      rcases Option.bind_eq_some.mp h with ⟨r, hr, h2⟩
      rcases Option.map_eq_some'.mp hr with ⟨cms, hcms, hre⟩
      rcases Option.map_eq_some'.mp h2 with ⟨crsR, hcrsR, he⟩
      exact ⟨r, crsR, Or.inl ⟨ms, cms, rfl, hcms, hre.symm⟩, hcrsR, he.symm⟩
    | vstr s =>
      have hnv : ∀ l, mapGet (ruleDeletes m) "matches" ≠ some (.varr l) :=
        fun l hl => by rw [hm] at hl; cases hl
      rw [cleanRules_cons_obj_not_varr hnv] at h
      rcases Option.map_eq_some'.mp h with ⟨crsR, hcrsR, he⟩
      exact ⟨_, crsR, Or.inr ⟨(fun l hl => nomatch hl), rfl⟩, hcrsR, he.symm⟩
    | vnum x =>
      have hnv : ∀ l, mapGet (ruleDeletes m) "matches" ≠ some (.varr l) :=
        fun l hl => by rw [hm] at hl; cases hl
      rw [cleanRules_cons_obj_not_varr hnv] at h
      rcases Option.map_eq_some'.mp h with ⟨crsR, hcrsR, he⟩
      exact ⟨_, crsR, Or.inr ⟨(fun l hl => nomatch hl), rfl⟩, hcrsR, he.symm⟩
    | vbool b =>
      have hnv : ∀ l, mapGet (ruleDeletes m) "matches" ≠ some (.varr l) :=
        fun l hl => by rw [hm] at hl; cases hl
      rw [cleanRules_cons_obj_not_varr hnv] at h
      rcases Option.map_eq_some'.mp h with ⟨crsR, hcrsR, he⟩
      exact ⟨_, crsR, Or.inr ⟨(fun l hl => nomatch hl), rfl⟩, hcrsR, he.symm⟩
    | vnull =>
      have hnv : ∀ l, mapGet (ruleDeletes m) "matches" ≠ some (.varr l) :=
        fun l hl => by rw [hm] at hl; cases hl
      rw [cleanRules_cons_obj_not_varr hnv] at h
      rcases Option.map_eq_some'.mp h with ⟨crsR, hcrsR, he⟩
      exact ⟨_, crsR, Or.inr ⟨(fun l hl => nomatch hl), rfl⟩, hcrsR, he.symm⟩
    | vobj m' =>
      have hnv : ∀ l, mapGet (ruleDeletes m) "matches" ≠ some (.varr l) :=
        fun l hl => by rw [hm] at hl; cases hl
      rw [cleanRules_cons_obj_not_varr hnv] at h
      rcases Option.map_eq_some'.mp h with ⟨crsR, hcrsR, he⟩
      exact ⟨_, crsR, Or.inr ⟨(fun l hl => nomatch hl), rfl⟩, hcrsR, he.symm⟩
    | vmapArr l' =>
      have hnv : ∀ l, mapGet (ruleDeletes m) "matches" ≠ some (.varr l) :=
        fun l hl => by rw [hm] at hl; cases hl
      rw [cleanRules_cons_obj_not_varr hnv] at h
      rcases Option.map_eq_some'.mp h with ⟨crsR, hcrsR, he⟩
      exact ⟨_, crsR, Or.inr ⟨(fun l hl => nomatch hl), rfl⟩, hcrsR, he.symm⟩

theorem ruleMeta_absent {m r : Obj}
    (hr : (∃ ms cms, mapGet (ruleDeletes m) "matches" = some (.varr ms) ∧
        cleanMatches ms = some cms ∧
        r = mapSet (ruleDeletes m) "matches" (.vmapArr cms)) ∨
      ((∀ l, mapGet (ruleDeletes m) "matches" ≠ some (.varr l)) ∧
        r = ruleDeletes m)) :
    ∀ k ∈ ruleMetaKeys, mapGet r k = none := by
  intro k hk
  have hkm : k ≠ "matches" := by
    fin_cases hk <;> decide
  rcases hr with ⟨ms, cms, hm, hcl, hre⟩ | ⟨hnv, hre⟩
  · rw [hre, mapGet_mapSet_ne hkm]
    exact mapGet_delAll_mem _ _ _ hk
  · rw [hre]
    exact mapGet_delAll_mem _ _ _ hk

theorem cleanRule_reparse_fix_head {m r : Obj}
    (hpm : parsedObj m = true)
    (hr : (∃ ms cms, mapGet (ruleDeletes m) "matches" = some (.varr ms) ∧
        cleanMatches ms = some cms ∧
        r = mapSet (ruleDeletes m) "matches" (.vmapArr cms)) ∨
      ((∀ l, mapGet (ruleDeletes m) "matches" ≠ some (.varr l)) ∧
        r = ruleDeletes m)) :
    (∃ Q, (match mapGet (ruleDeletes (reparseObj r)) "matches" with
       | some (.varr ms) =>
         (cleanMatches ms).map
           (fun cms => mapSet (ruleDeletes (reparseObj r)) "matches" (.vmapArr cms))
       | _ => some (ruleDeletes (reparseObj r))) = some Q ∧
      reparseObj Q = reparseObj r) := by
  have hrdparsed : parsedObj (ruleDeletes m) = true := parsedObj_delAll _ _ hpm
  have habs := ruleMeta_absent hr
  have hrrdel : ruleDeletes (reparseObj r) = reparseObj r := by
    unfold ruleDeletes
    apply delAll_eq_self
    intro k hk
    rw [mapGet_reparseObj, habs k hk]
    rfl
  have hrepr := reparseObj_idem r
  rcases hr with ⟨ms, cms, hm, hcl, hre⟩ | ⟨hnv, hre⟩
  · have hmsparsed : ∀ v ∈ ms, parsedVal v = true :=
      parsedVal_varr_iff.mp (mapGet_parsed hrdparsed hm)
    obtain ⟨cms', hc1, hc2⟩ :=
      cleanMatches_reparse_fix (sizeOf ms) ms (Nat.le_refl _) hmsparsed cms hcl
    have hrm : mapGet r "matches" = some (.vmapArr cms) := by
      rw [hre, mapGet_mapSet_self]
    have hrrm : mapGet (reparseObj r) "matches" =
        some (.varr (cms.map (fun mm => GoVal.vobj (reparseObj mm)))) := by
      rw [mapGet_reparseObj, hrm]
      simp only [Option.map_some']
      rw [reparseVal_vmapArr]
    refine ⟨mapSet (reparseObj r) "matches" (.vmapArr cms'), ?_, ?_⟩
    · rw [hrrdel, hrrm]
      simp only [hc1, Option.map_some']
    · rw [reparseObj_mapSet, hrepr]
      have hval : reparseVal (.vmapArr cms') = reparseVal (.vmapArr cms) := by
        rw [reparseVal_vmapArr, reparseVal_vmapArr]
        exact congrArg GoVal.varr (map_vobj_reparse_congr hc2)
      rw [hval]
      apply mapSet_same
      rw [mapGet_reparseObj, hrm]
      rfl
  · have hpv : ∀ w, mapGet r "matches" = some w → parsedVal w = true := by
      intro w hw
      rw [hre] at hw
      exact mapGet_parsed hrdparsed hw
    have hnv0 : ∀ l, mapGet r "matches" ≠ some (.varr l) := by
      intro l hl
      rw [hre] at hl
      exact hnv l hl
    have hnrm : ∀ l, mapGet (reparseObj r) "matches" ≠ some (.varr l) :=
      mapGet_reparse_not_varr hpv hnv0
    refine ⟨reparseObj r, ?_, hrepr⟩
    rw [hrrdel]
    cases hmm : mapGet (reparseObj r) "matches" with
    | none => rfl
    | some w =>
      cases w with
      | varr l => exact absurd hmm (hnrm l)
      | vstr s => rfl
      | vnum x => rfl
      | vbool b => rfl
      | vnull => rfl
      | vobj m' => rfl
      | vmapArr l' => rfl

theorem cleanRules_reparse_fix :
    ∀ (rules : List GoVal), (∀ v ∈ rules, parsedVal v = true) →
      ∀ crs : List Obj, cleanRules rules = some crs →
      ∃ crs', cleanRules (crs.map (fun r => GoVal.vobj (reparseObj r))) = some crs' ∧
        crs'.map reparseObj = crs.map reparseObj := by
  intro rules
  induction rules with
  | nil =>
    intro _ crs h
    rw [cleanRules_nil] at h
    cases h
    exact ⟨[], cleanRules_nil, rfl⟩
  | cons v rest ih =>
    intro hp crs h
    cases v with
    | vobj m =>
      have hpm : parsedObj m = true := hp _ (List.mem_cons_self _ _)
      obtain ⟨r, crsR, hstage, hcrsR, he⟩ := cleanRules_cons_some h
      subst he
      obtain ⟨Q, hQ1, hQ2⟩ := cleanRule_reparse_fix_head hpm hstage
      obtain ⟨crsR', ht1, ht2⟩ := ih
        (fun v' hv' => hp v' (List.mem_cons_of_mem _ hv')) crsR hcrsR
      refine ⟨Q :: crsR', ?_, ?_⟩
      · rw [List.map_cons, cleanRules_cons_obj, hQ1, ht1]
        rfl
      · rw [List.map_cons, List.map_cons, hQ2, ht2]
    | vstr s => exact Option.noConfusion h
    | vnum x => exact Option.noConfusion h
    | vbool b => exact Option.noConfusion h
    | vnull => exact Option.noConfusion h
    | varr l' => exact Option.noConfusion h
    | vmapArr l' => exact Option.noConfusion h

theorem cleanRules_elements :
    ∀ (rules : List GoVal), (∀ v ∈ rules, parsedVal v = true) →
      ∀ crs : List Obj, cleanRules rules = some crs →
      ∀ r ∈ crs,
        (∀ k ∈ ruleMetaKeys, mapGet r k = none) ∧
        (∀ cms, mapGet r "matches" = some (.vmapArr cms) →
          ∀ cm ∈ cms, matchOrdFree cm = true) := by
  intro rules
  induction rules with
  | nil =>
    intro _ crs h
    rw [cleanRules_nil] at h
    cases h
    intro r hr
    exact absurd hr (List.not_mem_nil r)
  | cons v rest ih =>
    intro hp crs h
    cases v with
    | vobj m =>
      have hpm : parsedObj m = true := hp _ (List.mem_cons_self _ _)
      obtain ⟨r0, crsR, hstage, hcrsR, he⟩ := cleanRules_cons_some h
      subst he
      intro r hr
      rcases List.mem_cons.mp hr with heq | hmem
      · subst heq
        refine ⟨ruleMeta_absent hstage, ?_⟩
        rcases hstage with ⟨ms, cms, hm, hcl, hre⟩ | ⟨hnv, hre⟩
        · intro cms0 hcms0 cm hcm
          have hrm : mapGet r "matches" = some (.vmapArr cms) := by
            rw [hre, mapGet_mapSet_self]
          rw [hrm] at hcms0
          have hceq : cms0 = cms := by
            have h2 := Option.some.injEq _ _ ▸ hcms0
            injection h2.symm
          have hmsparsed : ∀ v' ∈ ms, parsedVal v' = true :=
            parsedVal_varr_iff.mp
              (mapGet_parsed (parsedObj_delAll _ _ hpm) hm)
          exact cleanMatches_ordFree (sizeOf ms) ms (Nat.le_refl _)
            hmsparsed cms hcl cm (hceq ▸ hcm)
        · intro cms0 hcms0
          rw [hre] at hcms0
          have hpv := mapGet_parsed (parsedObj_delAll _ _ hpm) hcms0
          rw [parsedVal_vmapArr] at hpv
          cases hpv
      · exact ih (fun v' hv' => hp v' (List.mem_cons_of_mem _ hv')) crsR hcrsR r hmem
    | vstr s => exact Option.noConfusion h
    | vnum x => exact Option.noConfusion h
    | vbool b => exact Option.noConfusion h
    | vnull => exact Option.noConfusion h
    | varr l' => exact Option.noConfusion h
    | vmapArr l' => exact Option.noConfusion h

theorem cleanPolicy_varr {p : Obj} {rules : List GoVal}
    (hm : mapGet (rootDeletes p) "rules" = some (.varr rules)) :
    cleanPolicy p =
      (cleanRules rules).map
        (fun rms => mapSet (rootDeletes p) "rules" (.vmapArr rms)) := by
  unfold cleanPolicy
  rw [hm]

theorem cleanPolicy_not_varr {p : Obj}
    (h : ∀ l, mapGet (rootDeletes p) "rules" ≠ some (.varr l)) :
    cleanPolicy p = none := by
  unfold cleanPolicy
  cases hm : mapGet (rootDeletes p) "rules" with
  | none => rfl
  | some w =>
    cases w with
    | varr l => exact absurd hm (h l)
    | vstr s => rfl
    | vnum x => rfl
    | vbool b => rfl
    | vnull => rfl
    | vobj m' => rfl
    | vmapArr l' => rfl

theorem cleanPolicy_some_elim {p q : Obj} (h : cleanPolicy p = some q) :
    ∃ rules rms, mapGet (rootDeletes p) "rules" = some (.varr rules) ∧
      cleanRules rules = some rms ∧
      q = mapSet (rootDeletes p) "rules" (.vmapArr rms) := by
  cases hm : mapGet (rootDeletes p) "rules" with
  | none =>
    rw [cleanPolicy_not_varr (fun l hl => by rw [hm] at hl; cases hl)] at h
    exact Option.noConfusion h
  | some w =>
    cases w with
    | varr rules =>
      rw [cleanPolicy_varr hm] at h
      rcases Option.map_eq_some'.mp h with ⟨rms, hrms, he⟩
      exact ⟨rules, rms, rfl, hrms, he.symm⟩
    | vstr s =>
      rw [cleanPolicy_not_varr (fun l hl => by rw [hm] at hl; cases hl)] at h
      exact Option.noConfusion h
    | vnum x =>
      rw [cleanPolicy_not_varr (fun l hl => by rw [hm] at hl; cases hl)] at h
      exact Option.noConfusion h
    | vbool b =>
      rw [cleanPolicy_not_varr (fun l hl => by rw [hm] at hl; cases hl)] at h
      exact Option.noConfusion h
    | vnull =>
      rw [cleanPolicy_not_varr (fun l hl => by rw [hm] at hl; cases hl)] at h
      exact Option.noConfusion h
    | vobj m' =>
      rw [cleanPolicy_not_varr (fun l hl => by rw [hm] at hl; cases hl)] at h
      exact Option.noConfusion h
    | vmapArr l' =>
      rw [cleanPolicy_not_varr (fun l hl => by rw [hm] at hl; cases hl)] at h
      exact Option.noConfusion h

theorem cleanPolicy_reparse_fix {p q : Obj} (hp : parsedObj p = true)
    (h : cleanPolicy p = some q) :
    ∃ q', cleanPolicy (reparseObj q) = some q' ∧ reparseObj q' = reparseObj q := by
  obtain ⟨rules, rms, hm, hcr, hqe⟩ := cleanPolicy_some_elim h
  have hrdparsed : parsedObj (rootDeletes p) = true := parsedObj_delAll _ _ hp
  have hraparsed : ∀ v ∈ rules, parsedVal v = true :=
    parsedVal_varr_iff.mp (mapGet_parsed hrdparsed hm)
  obtain ⟨rms', hr1, hr2⟩ := cleanRules_reparse_fix rules hraparsed rms hcr
  have hqr : mapGet q "rules" = some (.vmapArr rms) := by
    rw [hqe, mapGet_mapSet_self]
  have hqmeta : ∀ k ∈ rootMetaKeys, mapGet q k = none := by
    intro k hk
    have hkr : k ≠ "rules" := by fin_cases hk <;> decide
    rw [hqe, mapGet_mapSet_ne hkr]
    exact mapGet_delAll_mem _ _ _ hk
  have hrq : mapGet (reparseObj q) "rules" =
      some (.varr (rms.map (fun r => GoVal.vobj (reparseObj r)))) := by
    rw [mapGet_reparseObj, hqr]
    simp only [Option.map_some']
    rw [reparseVal_vmapArr]
  have hrqdel : rootDeletes (reparseObj q) = reparseObj q := by
    unfold rootDeletes
    apply delAll_eq_self
    intro k hk
    rw [mapGet_reparseObj, hqmeta k hk]
    rfl
  have hrepq := reparseObj_idem q
  refine ⟨mapSet (reparseObj q) "rules" (.vmapArr rms'), ?_, ?_⟩
  · rw [cleanPolicy_varr (by rw [hrqdel]; exact hrq)]
    rw [hrqdel, hr1]
    simp only [Option.map_some']
  · rw [reparseObj_mapSet, hrepq]
    have hval : reparseVal (.vmapArr rms') = reparseVal (.vmapArr rms) := by
      rw [reparseVal_vmapArr, reparseVal_vmapArr]
      exact congrArg GoVal.varr (map_vobj_reparse_congr hr2)
    rw [hval]
    apply mapSet_same
    rw [mapGet_reparseObj, hqr]
    rfl

theorem cleanPolicy_metadata {p q : Obj} (hp : parsedObj p = true)
    (h : cleanPolicy p = some q) :
    (∀ k ∈ rootMetaKeys, mapGet q k = none) ∧
    ∃ rms, mapGet q "rules" = some (.vmapArr rms) ∧
      ∀ r ∈ rms,
        (∀ k ∈ ruleMetaKeys, mapGet r k = none) ∧
        (∀ cms, mapGet r "matches" = some (.vmapArr cms) →
          ∀ cm ∈ cms, matchOrdFree cm = true) := by
  obtain ⟨rules, rms, hm, hcr, hqe⟩ := cleanPolicy_some_elim h
  have hrdparsed : parsedObj (rootDeletes p) = true := parsedObj_delAll _ _ hp
  have hraparsed : ∀ v ∈ rules, parsedVal v = true :=
    parsedVal_varr_iff.mp (mapGet_parsed hrdparsed hm)
  refine ⟨?_, rms, ?_, ?_⟩
  · intro k hk
    have hkr : k ≠ "rules" := by fin_cases hk <;> decide
    rw [hqe, mapGet_mapSet_ne hkr]
    exact mapGet_delAll_mem _ _ _ hk
  · rw [hqe, mapGet_mapSet_self]
  · exact cleanRules_elements rules hraparsed rms hcr

/-- Go `cleanPolicyForTerrafomState` modelled at tree level: the state
function parses the policy string, runs `cleanPolicy`, and marshals the
result back to a string.  Marshalling followed by parsing is `reparseObj`
(it forgets the `[]map[string]interface{}` dynamic type), so at tree
level the function is `cleanPolicy` followed by `reparseObj`; `none`
models the Go panic propagating out of `cleanPolicy`. -/
def cleanPolicyForTerrafomState (p : Obj) : Option Obj :=
  (cleanPolicy p).map reparseObj

/-! ### Determinism of standardizeMatchFeature without key collisions -/

theorem keys_nodup_entry_eq {m : Obj} (hn : (keys m).Nodup)
    {p q : String × GoVal} (hp : p ∈ m) (hq : q ∈ m) (hk : p.1 = q.1) :
    p = q := by
  induction m with
  | nil => exact absurd hp (List.not_mem_nil p)
  | cons e rest ih =>
    have hn' : e.1 ∉ keys rest ∧ (keys rest).Nodup := by
      have : keys (e :: rest) = e.1 :: keys rest := rfl
      rw [this] at hn
      exact ⟨(List.nodup_cons.mp hn).1, (List.nodup_cons.mp hn).2⟩
    rcases List.mem_cons.mp hp with hp' | hp' <;>
      rcases List.mem_cons.mp hq with hq' | hq'
    · rw [hp', hq']
    · exfalso
      apply hn'.1
      rw [← hp', hk]
      exact mem_keys_iff.mpr ⟨q.2, hq'⟩
    · exfalso
      apply hn'.1
      rw [← hq', ← hk]
      exact mem_keys_iff.mpr ⟨p.2, hp'⟩
    · exact ih hn'.2 hp' hq'

theorem mapGet_eq_some_iff_nodup {m : Obj} (hn : (keys m).Nodup)
    {k : String} {v : GoVal} :
    mapGet m k = some v ↔ (k, v) ∈ m := by
  constructor
  · exact mapGet_eq_some_mem
  · intro hmem
    cases hg : mapGet m k with
    | none =>
      rw [mapGet_eq_none_iff] at hg
      exact absurd rfl (hg (k, v) hmem)
    | some w =>
      have hw := mapGet_eq_some_mem hg
      have heq := keys_nodup_entry_eq hn hw hmem rfl
      exact congrArg some (congrArg Prod.snd heq)

theorem mapGet_perm_nodup {m m' : Obj} (hperm : m.Perm m')
    (hn : (keys m).Nodup) (k : String) : mapGet m k = mapGet m' k := by
  have hn' : (keys m').Nodup := (hperm.map Prod.fst).nodup hn
  cases hg : mapGet m k with
  | none =>
    rw [mapGet_eq_none_iff] at hg
    cases hg' : mapGet m' k with
    | none => rfl
    | some w =>
      have hw := mapGet_eq_some_mem hg'
      exact absurd rfl (hg (k, w) (hperm.symm.subset hw))
  | some v =>
    have hv := mapGet_eq_some_mem hg
    exact ((mapGet_eq_some_iff_nodup hn').mpr (hperm.subset hv)).symm

theorem stdStep_no_collision :
    ∀ (done es : Obj) (m : Obj), m = done ++ es → (keys m).Nodup →
      (∀ e1 ∈ m, ∀ e2 ∈ m, stdKey e1.1 = stdKey e2.1 → e1.1 = e2.1) →
      List.foldl stdStep (es ++ done.map (fun e => (stdKey e.1, stdVal e.2))) es =
        done.map (fun e => (stdKey e.1, stdVal e.2)) ++
          es.map (fun e => (stdKey e.1, stdVal e.2))
  | done, [], m, hsplit, hn, hinj => by simp
  | done, e :: es', m, hsplit, hn, hinj => by
    have hmem_e : e ∈ m := by rw [hsplit]; exact List.mem_append_right _ (List.mem_cons_self _ _)
    have hkeys : keys m = keys done ++ e.1 :: keys es' := by
      rw [hsplit, keys_append]
      rfl
    have hn2 : (keys done ++ e.1 :: keys es').Nodup := by rw [← hkeys]; exact hn
    have he_done : ∀ d ∈ done, d.1 ≠ e.1 := by
      intro d hd he
      have h1 : d.1 ∈ keys done := mem_keys_iff.mpr ⟨d.2, hd⟩
      have h2 := (List.disjoint_of_nodup_append hn2) h1
      exact h2 (by rw [he]; exact List.mem_cons_self _ _)
    have he_es : e.1 ∉ keys es' := by
      have := (List.nodup_append.mp hn2).2.1
      exact (List.nodup_cons.mp this).1
    -- the deleted map
    have hdel : mapDel ((e :: es') ++ done.map (fun e => (stdKey e.1, stdVal e.2))) e.1 =
        es' ++ done.map (fun e => (stdKey e.1, stdVal e.2)) := by
      rw [List.cons_append]
      have h1 : mapDel (e :: (es' ++ done.map (fun e => (stdKey e.1, stdVal e.2)))) e.1 =
          mapDel (es' ++ done.map (fun e => (stdKey e.1, stdVal e.2))) e.1 := by
        simp [mapDel, List.filter_cons]
      rw [h1]
      apply mapDel_eq_self
      rw [mapGet_eq_none_iff]
      intro p hp hpk
      rcases List.mem_append.mp hp with hp' | hp'
      · exact he_es (by rw [← hpk]; exact mem_keys_iff.mpr ⟨p.2, hp'⟩)
      · rcases List.mem_map.mp hp' with ⟨d, hd, hde⟩
        subst hde
        have hdk : stdKey d.1 = e.1 := hpk
        have hfix : stdKey e.1 = e.1 := by
          rw [← hdk]
          exact stdKey_idem d.1
        have hde2 : stdKey d.1 = stdKey e.1 := by rw [hdk, hfix]
        have hmem_d : d ∈ m := by rw [hsplit]; exact List.mem_append_left _ hd
        have := hinj d hmem_d e hmem_e hde2
        exact he_done d hd this
    -- the insertion appends
    have hset : mapSet (es' ++ done.map (fun e => (stdKey e.1, stdVal e.2)))
        (stdKey e.1) (stdVal e.2) =
        (es' ++ done.map (fun e => (stdKey e.1, stdVal e.2))) ++
          [(stdKey e.1, stdVal e.2)] := by
      apply mapSet_append
      rw [mapGet_eq_none_iff]
      intro p hp hpk
      rcases List.mem_append.mp hp with hp' | hp'
      · -- raw key equal to a standardized key
        have hfix : stdKey p.1 = p.1 := by rw [hpk, stdKey_idem]
        have hmem_p : p ∈ m := by
          rw [hsplit]
          exact List.mem_append_right _ (List.mem_cons_of_mem _ hp')
        have := hinj p hmem_p e hmem_e (by rw [hfix, hpk])
        exact he_es (by rw [← this]; exact mem_keys_iff.mpr ⟨p.2, hp'⟩)
      · rcases List.mem_map.mp hp' with ⟨d, hd, hde⟩
        subst hde
        have hdk : stdKey d.1 = stdKey e.1 := hpk
        have hmem_d : d ∈ m := by rw [hsplit]; exact List.mem_append_left _ hd
        have := hinj d hmem_d e hmem_e hdk
        exact he_done d hd this
    have hstep : stdStep ((e :: es') ++ done.map (fun e => (stdKey e.1, stdVal e.2))) e =
        es' ++ (done ++ [e]).map (fun e => (stdKey e.1, stdVal e.2)) := by
      unfold stdStep
      rw [hdel, hset]
      rw [List.map_append, List.append_assoc]
      rfl
    have hrec := stdStep_no_collision (done ++ [e]) es' m
      (by rw [hsplit, List.append_assoc]; rfl) hn hinj
    calc List.foldl stdStep
          ((e :: es') ++ done.map (fun e => (stdKey e.1, stdVal e.2))) (e :: es')
        = List.foldl stdStep
            (stdStep ((e :: es') ++ done.map (fun e => (stdKey e.1, stdVal e.2))) e) es' := rfl
      _ = List.foldl stdStep
            (es' ++ (done ++ [e]).map (fun e => (stdKey e.1, stdVal e.2))) es' := by rw [hstep]
      _ = (done ++ [e]).map (fun e => (stdKey e.1, stdVal e.2)) ++
            es'.map (fun e => (stdKey e.1, stdVal e.2)) := hrec
      _ = done.map (fun e => (stdKey e.1, stdVal e.2)) ++
            (e :: es').map (fun e => (stdKey e.1, stdVal e.2)) := by simp

theorem stdMF_no_collision {m : Obj} (hn : (keys m).Nodup)
    (hinj : ∀ e1 ∈ m, ∀ e2 ∈ m, stdKey e1.1 = stdKey e2.1 → e1.1 = e2.1) :
    standardizeMatchFeature m = m.map (fun e => (stdKey e.1, stdVal e.2)) := by
  have h := stdStep_no_collision [] m m rfl hn hinj
  simpa [standardizeMatchFeature] using h

/-! ### Supporting lemmas for the claim theorems -/

theorem stdChar_ne_hyphen (c : Char) : stdChar c ≠ '-' := by
  unfold stdChar
  split
  · decide
  · assumption

theorem stdKey_fix_of_no_hyphen {k : String} (h : '-' ∉ k.data) : stdKey k = k := by
  apply string_data_inj
  rw [stdKey_data]
  have hfix : ∀ c ∈ k.data, stdChar c = c := by
    intro c hc
    unfold stdChar
    exact if_neg (fun he => h (by rw [← he]; exact hc))
  rw [List.map_congr_left hfix]
  simp

theorem string_length_eq_zero {s : String} : s.length = 0 ↔ s = "" := by
  constructor
  · intro h
    have hd : s.data = [] := List.length_eq_zero.mp h
    exact string_data_inj (by rw [hd])
  · intro h
    rw [h]
    decide

/-- A policy as the Go code receives it from the API: metadata at the
root, the rule, the match and the feature levels, plus a hyphenated
feature key holding a string array. -/
def samplePolicy : Obj :=
  [("id", .vstr "7"), ("state", .vstr "locked"),
   ("rules", .varr
     [.vobj [("id", .vstr "r1"), ("ordinal", .vnum 1),
             ("matches", .varr
               [.vobj [("ordinal", .vnum 1), ("type", .vstr "match.always"),
                       ("features", .varr
                         [.vobj [("type", .vstr "feature.comment"),
                                 ("ordinal", .vnum 2),
                                 ("cache-control", .varr [.vstr "a", .vstr "b"])]])]])]])]

/-- `cleanPolicy samplePolicy` (the in-memory result, with the Go-typed
`[]map[string]interface{}` levels). -/
def sampleCleaned : Obj :=
  [("rules", .vmapArr
     [[("matches", .vmapArr
         [[("type", .vstr "match.always"),
           ("features", .vmapArr
             [[("type", .vstr "feature.comment"),
               ("cache_control", .vstr "a b")]])]])]])]

/-- `cleanPolicyForTerrafomState samplePolicy` (after the marshal/parse
round trip). -/
def sampleNormalized : Obj :=
  [("rules", .varr
     [.vobj [("matches", .varr
         [.vobj [("type", .vstr "match.always"),
           ("features", .varr
             [.vobj [("type", .vstr "feature.comment"),
               ("cache_control", .vstr "a b")]])]])]])]

/-! ### The claims -/

/-- C1 (as written, refuted): `cleanPolicy` is not idempotent as a map
transformation.  Its first application stores the cleaned rules back
with Go type `[]map[string]interface{}` (`vmapArr`), and the second
application's unchecked type assertion
`policyMap["rules"].([]interface{})` then panics (`none`): the second
application fails on every output of the first that it reaches this
way. -/
theorem C1_counterexample_second_application_panics :
    cleanPolicy [("rules", GoVal.varr [])] = some [("rules", GoVal.vmapArr [])] ∧
    cleanPolicy [("rules", GoVal.vmapArr [])] = none :=
  ⟨rfl, rfl⟩

/-- C1 (amended): idempotence holds for the normalizer the resource
actually exposes, `cleanPolicyForTerrafomState` = parse, `cleanPolicy`,
marshal: on any JSON-parse image `p` (`parsedObj`) on which it succeeds,
its output is a fixed point — the second application succeeds and
returns the same tree. -/
theorem C1_clean_roundtrip_idempotent {p q : Obj}
    (hp : parsedObj p = true)
    (h : cleanPolicyForTerrafomState p = some q) :
    cleanPolicyForTerrafomState q = some q := by
  unfold cleanPolicyForTerrafomState at h ⊢
  rcases Option.map_eq_some'.mp h with ⟨q0, hq0, hqe⟩
  obtain ⟨q', hc, hr⟩ := cleanPolicy_reparse_fix hp hq0
  rw [← hqe, hc]
  simp only [Option.map_some']
  rw [hr]

/-- C1 witness: the round-trip normalizer at a concrete policy. -/
theorem C1_clean_roundtrip_idempotent_witness :
    parsedObj samplePolicy = true ∧
    cleanPolicyForTerrafomState samplePolicy = some sampleNormalized ∧
    cleanPolicyForTerrafomState sampleNormalized = some sampleNormalized :=
  ⟨by decide, by rfl,
   C1_clean_roundtrip_idempotent (p := samplePolicy) (by decide) (by rfl)⟩

/-- C2 (as written, refuted): a missing `rules` key at the root is NOT
tolerated — `cleanPolicy` runs the unchecked type assertion
`policyMap["rules"].([]interface{})` and panics (`none`) on the empty
policy map, which has no `rules` key. -/
theorem C2_counterexample_missing_rules_panics :
    mapGet ([] : Obj) "rules" = none ∧ cleanPolicy ([] : Obj) = none :=
  ⟨rfl, rfl⟩

/-- C2 (amended): a missing `rules` key at the root panics the clean
(first conjunct), while the claim is right about the inner levels: a
rule without a `matches` key is kept with only its metadata deleted
(second conjunct), and a match without `matches` and `features` keys is
kept with only the ordinal delete and the standardization applied
(third conjunct) — the comma-ok assertions make those keys optional. -/
theorem C2_missing_keys :
    (∀ p : Obj, mapGet p "rules" = none → cleanPolicy p = none) ∧
    (∀ m : Obj, mapGet (ruleDeletes m) "matches" = none →
      cleanRules [.vobj m] = some [ruleDeletes m]) ∧
    (∀ m : Obj,
      mapGet (standardizeMatchFeature (mapDel m "ordinal")) "matches" = none →
      mapGet (standardizeMatchFeature (mapDel m "ordinal")) "features" = none →
      cleanMatches [.vobj m] =
        some [standardizeMatchFeature (mapDel m "ordinal")]) := by
  refine ⟨?_, ?_, ?_⟩
  · intro p h
    apply cleanPolicy_not_varr
    intro l hl
    have hr : mapGet (rootDeletes p) "rules" = none := by
      unfold rootDeletes
      rw [mapGet_delAll_not_mem _ _ _ (by decide)]
      exact h
    rw [hr] at hl
    exact nomatch hl
  · intro m h
    rw [cleanRules_cons_obj_not_varr (fun l hl => by rw [h] at hl; exact nomatch hl) [],
      cleanRules_nil]
    rfl
  · intro m h1 h2
    rw [cleanMatches_cons,
      cleanMatch_obj_not_varr (fun l hl => by rw [h1] at hl; exact nomatch hl),
      finishMatch_not_varr (fun fs hfs => by rw [h2] at hfs; exact nomatch hfs),
      cleanMatches_nil]
    rfl

/-- C2 witness: the three parts at concrete inputs — a root map with no
`rules` key, a rule with no `matches`, and a match with neither
`matches` nor `features`. -/
theorem C2_missing_keys_witness :
    cleanPolicy [("name", GoVal.vstr "x")] = none ∧
    cleanRules [.vobj [("type", GoVal.vstr "t")]] =
      some [ruleDeletes [("type", GoVal.vstr "t")]] ∧
    cleanMatches [.vobj [("type", GoVal.vstr "t")]] =
      some [standardizeMatchFeature (mapDel [("type", GoVal.vstr "t")] "ordinal")] :=
  ⟨C2_missing_keys.1 _ (by rfl), C2_missing_keys.2.1 _ (by rfl),
   C2_missing_keys.2.2 _ (by rfl) (by rfl)⟩

/-- C3 (as written, refuted): at the RULE level only
{id, @id, @type, ordinal, created_at, updated_at} are deleted — the
keys `policy_type`, `state` and `history` are root-level deletes only
and survive on a rule: here a rule's `state` key is still present after
`cleanPolicy`. -/
theorem C3_counterexample_rule_state_kept :
    cleanPolicy [("rules", GoVal.varr [.vobj [("state", GoVal.vstr "locked")]])] =
      some [("rules", GoVal.vmapArr [[("state", GoVal.vstr "locked")]])] ∧
    mapGet [("state", GoVal.vstr "locked")] "state" = some (.vstr "locked") :=
  ⟨rfl, rfl⟩

/-- C3 (amended): on any JSON-parse image on which `cleanPolicy`
succeeds, the output root has none of the eight root metadata keys, the
cleaned `rules` hold rule maps with none of the six rule metadata keys
{id, @id, @type, ordinal, created_at, updated_at}, and no `ordinal` key
survives on any match or feature object at any nesting depth. -/
theorem C3_metadata_removal {p q : Obj} (hp : parsedObj p = true)
    (h : cleanPolicy p = some q) :
    (∀ k ∈ rootMetaKeys, mapGet q k = none) ∧
    ∃ rms, mapGet q "rules" = some (.vmapArr rms) ∧
      ∀ r ∈ rms,
        (∀ k ∈ ruleMetaKeys, mapGet r k = none) ∧
        (∀ cms, mapGet r "matches" = some (.vmapArr cms) →
          ∀ cm ∈ cms, matchOrdFree cm = true) :=
  cleanPolicy_metadata hp h

/-- C3 witness: the metadata-removal facts materialized at a concrete
policy carrying metadata at every level. -/
theorem C3_metadata_removal_witness :
    (∀ k ∈ rootMetaKeys, mapGet sampleCleaned k = none) ∧
    ∃ rms, mapGet sampleCleaned "rules" = some (.vmapArr rms) ∧
      ∀ r ∈ rms,
        (∀ k ∈ ruleMetaKeys, mapGet r k = none) ∧
        (∀ cms, mapGet r "matches" = some (.vmapArr cms) →
          ∀ cm ∈ cms, matchOrdFree cm = true) :=
  C3_metadata_removal (p := samplePolicy) (by decide) (by rfl)

/-- C4: key/value standardization.  (i) standardized keys carry no
hyphen, and hyphen-free keys are unchanged; (ii) an array all of whose
elements are strings is replaced by the elements joined with single
spaces in order; (iii) an array with a non-string element is left
entirely unchanged; (iv) every output entry is the standardization of
some input entry; (v) every input entry is represented in the output at
its standardized key. -/
theorem C4_standardize_match_feature :
    (∀ k : String, '-' ∉ (stdKey k).data ∧ ('-' ∉ k.data → stdKey k = k)) ∧
    (∀ (l : List GoVal) (ss : List String), ConvertSliceToStrings l = some ss →
      l = ss.map GoVal.vstr ∧ stdVal (.varr l) = .vstr (String.intercalate " " ss)) ∧
    (∀ l : List GoVal, (∃ v ∈ l, ∀ s, v ≠ GoVal.vstr s) → stdVal (.varr l) = .varr l) ∧
    (∀ (m : Obj) (p : String × GoVal), p ∈ standardizeMatchFeature m →
      ∃ e ∈ m, p = (stdKey e.1, stdVal e.2)) ∧
    (∀ (m : Obj) (e : String × GoVal), e ∈ m →
      (mapGet (standardizeMatchFeature m) (stdKey e.1)).isSome = true) := by
  refine ⟨?_, ?_, ?_, ?_, ?_⟩
  · intro k
    refine ⟨?_, stdKey_fix_of_no_hyphen⟩
    rw [stdKey_data]
    intro hmem
    rcases List.mem_map.mp hmem with ⟨c, _, hc⟩
    exact stdChar_ne_hyphen c hc
  · intro l ss h
    refine ⟨ConvertSliceToStrings_some h, ?_⟩
    simp only [stdVal, h]
  · intro l h
    have hnone : ConvertSliceToStrings l = none := by
      cases hc : ConvertSliceToStrings l with
      | none => rfl
      | some ss =>
        rcases h with ⟨v, hv, hns⟩
        rw [ConvertSliceToStrings_some hc] at hv
        rcases List.mem_map.mp hv with ⟨s, _, hs⟩
        exact absurd hs.symm (hns s)
    simp only [stdVal, hnone]
  · intro m p hp
    exact stdMF_origin hp
  · intro m e he
    exact stdMF_present he

/-- C4 witness: an all-strings array joins to "a b" under the
standardized key, and an array holding an object is left unchanged. -/
theorem C4_standardize_match_feature_witness :
    stdVal (.varr [GoVal.vstr "a", GoVal.vstr "b"]) =
      .vstr (String.intercalate " " ["a", "b"]) ∧
    stdVal (.varr [GoVal.vobj []]) = .varr [GoVal.vobj []] ∧
    (mapGet (standardizeMatchFeature
        [("cache-control", GoVal.varr [.vstr "a", .vstr "b"])])
      (stdKey "cache-control")).isSome = true :=
  ⟨(C4_standardize_match_feature.2.1 _ ["a", "b"] (by rfl)).2,
   C4_standardize_match_feature.2.2.1 [GoVal.vobj []]
     ⟨GoVal.vobj [], List.mem_cons_self _ _, (fun s h => nomatch h)⟩,
   C4_standardize_match_feature.2.2.2.2 _
     ("cache-control", GoVal.varr [.vstr "a", .vstr "b"]) (List.mem_cons_self _ _)⟩

/-- C5: the retry predicate returns true iff the status is "processing"
case-insensitively, or the metadata list is empty, or the first
domain's token object is nil, or the first domain's token string is
empty; and whenever it returns false (with both API calls succeeding,
a DV certificate and no workflow error), the read finishes on the first
attempt with the first domain's token as the value and the timestamp as
the id, with no error. -/
theorem C5_check_for_retry :
    (∀ (metadata : List DomainDcvFull) (st : CertificateGetCertificateStatusOK),
      CheckForRetry metadata st = true ↔
        (goToLower st.status = "processing" ∨ metadata = [] ∨
          ∃ d rest, metadata = d :: rest ∧
            (d.dcvToken = none ∨ ∃ t, d.dcvToken = some t ∧ t.token = ""))) ∧
    (∀ (env : PollEnv) (resp : CertificateGetOK)
        (st : CertificateGetCertificateStatusOK) (retry : Bool) (ts : String)
        (fuel : Nat) (s0 : ReadState),
      env.certResp = some resp → env.statusResp = some st →
      resp.validationType = CdnProvidedCertificateValidationTypeDV →
      resp.workflowErrorMessage = "" →
      CheckForRetry env.metadata st = false →
      runRetry env retry ts (fuel + 1) s0 =
        (⟨some (firstToken env.metadata), some ts⟩, none, 1)) := by
  refine ⟨?_, ?_⟩
  · intro metadata st
    cases metadata with
    | nil => simp [CheckForRetry]
    | cons d rest =>
      cases hd : d.dcvToken with
      | none => simp [CheckForRetry, hd]
      | some t => simp [CheckForRetry, hd, string_length_eq_zero]
  · intro env resp st retry ts fuel s0 h1 h2 h3 h4 h5
    have hps : pollStep env retry ts s0 =
        .finished ⟨some (firstToken env.metadata), some ts⟩ := by
      unfold pollStep
      simp only [h1, h2]
      rw [if_neg (fun hne => hne h3), if_neg (by rw [h4]; decide),
        if_neg (by rw [h5]; exact Bool.false_ne_true)]
    simp only [runRetry, hps]

/-- C5 witness: a "complete" status with first token "XYZ" finishes the
very first attempt with value "XYZ". -/
theorem C5_check_for_retry_witness :
    runRetry ⟨some ⟨"DV", ""⟩, some ⟨"Complete"⟩, [⟨some ⟨"XYZ"⟩⟩]⟩
        false "1700000000" 1 ⟨none, none⟩ =
      (⟨some "XYZ", some "1700000000"⟩, none, 1) :=
  C5_check_for_retry.2 _ ⟨"DV", ""⟩ ⟨"Complete"⟩ false "1700000000" 0 ⟨none, none⟩
    rfl rfl rfl rfl (by decide)

/-- C6: a certificate whose validation type is not DV makes the poller
return the fatal error "certificate must have validation type DV" on
the first attempt, whatever the retry flag and the remaining budget;
the state is left untouched. -/
theorem C6_non_dv_fatal (env : PollEnv) (resp : CertificateGetOK)
    (st : CertificateGetCertificateStatusOK) (retry : Bool) (ts : String)
    (fuel : Nat) (s0 : ReadState)
    (h1 : env.certResp = some resp) (h2 : env.statusResp = some st)
    (h3 : resp.validationType ≠ CdnProvidedCertificateValidationTypeDV) :
    runRetry env retry ts (fuel + 1) s0 =
      (s0, some "certificate must have validation type DV", 1) := by
  have hps : pollStep env retry ts s0 =
      .fatal "certificate must have validation type DV" s0 := by
    unfold pollStep
    simp only [h1, h2]
    rw [if_pos h3]
  simp only [runRetry, hps]

/-- C6 witness: an "EV" certificate fails fatally on the first of five
allowed attempts, with the retry flag set. -/
theorem C6_non_dv_fatal_witness :
    runRetry ⟨some ⟨"EV", ""⟩, some ⟨"Complete"⟩, []⟩ true "ts" 5 ⟨none, none⟩ =
      (⟨none, none⟩, some "certificate must have validation type DV", 1) :=
  C6_non_dv_fatal _ ⟨"EV", ""⟩ ⟨"Complete"⟩ true "ts" 4 ⟨none, none⟩ rfl rfl
    (by decide)

/-- C7: when the retry predicate asks for a retry but the
`wait_until_available` flag is false, the closure returns nil: the run
ends after exactly one query with no error, and neither the value nor
the id is set — the read reports success with untouched state. -/
theorem C7_no_retry_early_exit (env : PollEnv) (resp : CertificateGetOK)
    (st : CertificateGetCertificateStatusOK) (ts : String) (fuel : Nat)
    (h1 : env.certResp = some resp) (h2 : env.statusResp = some st)
    (h3 : resp.validationType = CdnProvidedCertificateValidationTypeDV)
    (h4 : resp.workflowErrorMessage = "")
    (h5 : CheckForRetry env.metadata st = true) :
    runRetry env false ts (fuel + 1) ⟨none, none⟩ = (⟨none, none⟩, none, 1) ∧
    DataSourceDNSTXTTokenRead (some (fuel + 1)) env false ts = .ok ⟨none, none⟩ := by
  have hps : pollStep env false ts ⟨none, none⟩ = .finished ⟨none, none⟩ := by
    unfold pollStep
    simp only [h1, h2]
    rw [if_neg (fun hne => hne h3), if_neg (by rw [h4]; decide), if_pos (by rw [h5])]
    rfl
  have hrun : runRetry env false ts (fuel + 1) ⟨none, none⟩ =
      (⟨none, none⟩, none, 1) := by
    simp only [runRetry, hps]
  refine ⟨hrun, ?_⟩
  simp only [DataSourceDNSTXTTokenRead, hrun]

/-- C7 witness: a "processing" status with the retry flag off — one
query, no error, no value, no id. -/
theorem C7_no_retry_early_exit_witness :
    runRetry ⟨some ⟨"DV", ""⟩, some ⟨"Processing"⟩, [⟨some ⟨"XYZ"⟩⟩]⟩
        false "ts" 3 ⟨none, none⟩ = (⟨none, none⟩, none, 1) ∧
    DataSourceDNSTXTTokenRead (some 3) ⟨some ⟨"DV", ""⟩, some ⟨"Processing"⟩,
        [⟨some ⟨"XYZ"⟩⟩]⟩ false "ts" = .ok ⟨none, none⟩ :=
  C7_no_retry_early_exit _ ⟨"DV", ""⟩ ⟨"Processing"⟩ "ts" 2 rfl rfl rfl rfl
    (by decide)

/-- C8 (as written, refuted): the create path does NOT abort on a failed
JSON parse.  `ResourcePolicyCreate` ignores the `json.Unmarshal` error,
so a malformed policy string (`parsed = none`) leaves the map empty and
the handler proceeds to submit `{"state": "locked"}` built from the
failed parse. -/
theorem C8_counterexample_create_ignores_parse_error :
    ResourcePolicyCreateSubmission none = .ok [("state", GoVal.vstr "locked")] :=
  rfl

/-- C8 (amended): (i) create never aborts on its parse — for every parse
outcome it submits the parsed map (empty when the parse failed) with
`state` forced to "locked"; (ii) a read whose stored id fails
`strconv.Atoi` reports the parse error immediately, before any API
call, but does mutate state: the stored id is cleared; (iii) a token
read with an unparsable `wait_timeout` errors immediately with no
queries and no state change. -/
theorem C8_input_error_handling :
    (∀ parsed : Option Obj,
      ResourcePolicyCreateSubmission parsed = .ok (createPolicyMap parsed)) ∧
    (∀ (st : PolicyResourceState) (env : RemoteEnv),
      goAtoi (st.id.getD "") = none →
      ResourcePolicyRead st env =
        ([], { st with id := some "" },
          some "error parsing Policy ID from state file")) ∧
    (∀ (env : PollEnv) (retry : Bool) (ts : String),
      DataSourceDNSTXTTokenRead none env retry ts = .error "invalid wait_timeout") := by
  refine ⟨fun parsed => rfl, ?_, fun env retry ts => rfl⟩
  intro st env h
  simp only [ResourcePolicyRead, getPolicy, h]

/-- C8 witness: a read with the unparsable stored id "abc" against a
healthy remote — the error is reported with no API calls and the id
cleared. -/
theorem C8_input_error_handling_witness :
    ResourcePolicyRead ⟨some "abc", none, none⟩ ⟨.ok [], .ok "1", .ok "d"⟩ =
      ([], ⟨some "", none, none⟩,
        some "error parsing Policy ID from state file") :=
  C8_input_error_handling.2.1 ⟨some "abc", none, none⟩ ⟨.ok [], .ok "1", .ok "d"⟩
    (by rfl)

/-- C9: a successful delete issues exactly a fetch, a policy submission
and a deploy — never a delete endpoint call; the submitted placeholder
carries the fetched policy's platform and `state` "locked", and the
stored id ends cleared to signal logical deletion. -/
theorem C9_delete_as_placeholder (st : PolicyResourceState) (env : RemoteEnv)
    (deployTo ts : String) (policy : Obj) (platform respID deployID : String)
    (pid rid : Int)
    (h1 : goAtoi (st.id.getD "") = some pid)
    (h2 : env.getPolicyResp = .ok policy)
    (h3 : mapGet policy "platform" = some (.vstr platform))
    (h4 : env.addPolicyResp = .ok respID)
    (h5 : goAtoi respID = some rid)
    (h6 : env.deployResp = .ok deployID) :
    ResourcePolicyDelete st env deployTo ts =
      ([.getPolicy pid, .addPolicy (emptyPolicyObj ts platform),
        .deployPolicy rid deployTo],
        { st with id := some "" }, none) ∧
    mapGet (emptyPolicyObj ts platform) "platform" = some (.vstr platform) ∧
    mapGet (emptyPolicyObj ts platform) "state" = some (.vstr "locked") ∧
    ∀ c ∈ [APICall.getPolicy pid, .addPolicy (emptyPolicyObj ts platform),
        .deployPolicy rid deployTo], ∀ i : Int, c ≠ .deletePolicy i := by
  refine ⟨?_, rfl, rfl, ?_⟩
  · simp only [ResourcePolicyDelete, getPolicy, addPolicy, h1, h2, h3, h4, h5, h6]
    rfl
  · intro c hc i
    rcases List.mem_cons.mp hc with rfl | hc
    · exact fun h => nomatch h
    rcases List.mem_cons.mp hc with rfl | hc
    · exact fun h => nomatch h
    rcases List.mem_cons.mp hc with rfl | hc
    · exact fun h => nomatch h
    · exact absurd hc (List.not_mem_nil c)

/-- C9 witness: deleting policy 7 on platform "adn" — the three calls in
order, the placeholder's fields, and the cleared id. -/
theorem C9_delete_as_placeholder_witness :
    ResourcePolicyDelete ⟨some "7", none, none⟩
        ⟨.ok [("platform", GoVal.vstr "adn")], .ok "12", .ok "dep1"⟩
        "production" "T0" =
      ([.getPolicy 7, .addPolicy (emptyPolicyObj "T0" "adn"),
        .deployPolicy 12 "production"],
        ⟨some "", none, none⟩, none) ∧
    mapGet (emptyPolicyObj "T0" "adn") "platform" = some (.vstr "adn") ∧
    mapGet (emptyPolicyObj "T0" "adn") "state" = some (.vstr "locked") ∧
    ∀ c ∈ [APICall.getPolicy 7, .addPolicy (emptyPolicyObj "T0" "adn"),
        .deployPolicy 12 "production"], ∀ i : Int, c ≠ .deletePolicy i :=
  C9_delete_as_placeholder ⟨some "7", none, none⟩
    ⟨.ok [("platform", GoVal.vstr "adn")], .ok "12", .ok "dep1"⟩
    "production" "T0" [("platform", GoVal.vstr "adn")] "adn" "12" "dep1" 7 12
    (by rfl) rfl rfl rfl (by rfl) rfl

/-- C10: when no two distinct keys of the map standardize to the same
key, the delete-then-reinsert loop is deterministic: it equals the
reference map that transforms each entry once (in place, preserving
entry order), and its observable result — lookup at every key — is the
same for every iteration order (every permutation) of the map. -/
theorem C10_standardize_deterministic (m1 m2 : Obj)
    (hperm : m1.Perm m2) (hn : (keys m1).Nodup)
    (hinj : ∀ e1 ∈ m1, ∀ e2 ∈ m1, stdKey e1.1 = stdKey e2.1 → e1.1 = e2.1) :
    standardizeMatchFeature m1 = m1.map (fun e => (stdKey e.1, stdVal e.2)) ∧
    ∀ k, mapGet (standardizeMatchFeature m1) k =
      mapGet (standardizeMatchFeature m2) k := by
  have hn2 : (keys m2).Nodup := (hperm.map Prod.fst).nodup hn
  have hinj2 : ∀ e1 ∈ m2, ∀ e2 ∈ m2, stdKey e1.1 = stdKey e2.1 → e1.1 = e2.1 :=
    fun e1 hm1 e2 hm2 => hinj e1 (hperm.symm.subset hm1) e2 (hperm.symm.subset hm2)
  have hm1 := stdMF_no_collision hn hinj
  have hm2 := stdMF_no_collision hn2 hinj2
  refine ⟨hm1, fun k => ?_⟩
  rw [hm1, hm2]
  apply mapGet_perm_nodup (hperm.map _)
  have hkeys : keys (m1.map (fun e => (stdKey e.1, stdVal e.2))) =
      m1.map (fun e => stdKey e.1) := by
    unfold keys
    rw [List.map_map]
    rfl
  rw [hkeys]
  have hmn : m1.Nodup := List.Nodup.of_map _ hn
  refine List.Nodup.map_on ?_ hmn
  intro x hx y hy hf
  exact keys_nodup_entry_eq hn hx hy (hinj x hx y hy hf)

/-- C10 witness: the two iteration orders of a two-entry map with a
hyphenated key agree everywhere, and match the fresh reference map. -/
theorem C10_standardize_deterministic_witness :
    standardizeMatchFeature [("a-b", GoVal.vstr "x"), ("c", GoVal.vnull)] =
      [("a-b", GoVal.vstr "x"), ("c", GoVal.vnull)].map
        (fun e => (stdKey e.1, stdVal e.2)) ∧
    ∀ k, mapGet (standardizeMatchFeature
        [("a-b", GoVal.vstr "x"), ("c", GoVal.vnull)]) k =
      mapGet (standardizeMatchFeature
        [("c", GoVal.vnull), ("a-b", GoVal.vstr "x")]) k :=
  C10_standardize_deterministic _ _
    (List.Perm.swap ("c", GoVal.vnull) ("a-b", GoVal.vstr "x") [])
    (by decide) (by decide)
